import Mathlib

/-!
Verification of the cosmos-mongo-compare sampling-and-comparison engine.

This file shallowly embeds the core of the repository in Lean 4:

* the document data model (a tagged sum of JSON/BSON-like values),
* the structural diff of compare.py (prune phase, typed differences,
  order-insensitive array comparison),
* the deterministic streaming top-k key selection of sampling.py,
* the sample-size computation of sampling.py (with an exact model of the
  IEEE-754 double arithmetic Python uses for the percentage branch),
* the per-collection statistics accumulation and mismatch journal of
  orchestrator.py and reporting.py, and
* the run-mode collection resolution of orchestrator.py and the field-path
  validation of config.py.

Python dicts are modelled as association lists with unique keys, Python
integers as Int, Python strings as String (Python string comparison is
lexicographic by code point, matching the String order used here).
-/

namespace CMC

/-- A Python float (IEEE-754 double), encoded for the finite case by the
sign and the decimal mantissa/exponent of its shortest round-trip repr
(CPython float_repr): every finite double has exactly one such shortest
decimal form (m without trailing zeros, value ±m·10^e), and distinct doubles
have numerically distinct forms (each round-trips to its own double), so the
encoding is a bijection onto the finite doubles with the sign of zero carried
by neg.  Infinities and NaN are the remaining double values (Python keeps one
observable NaN: all NaN payloads print and compare alike). -/
inductive Fl where
  | fin (neg : Bool) (m : Nat) (e : Int) : Fl
  | inf (neg : Bool) : Fl
  | nan : Fl
  deriving DecidableEq, Repr

/-- A timezone-naive datetime (year, month, day, hour, minute, second,
microsecond), the shape PyMongo hands to compare.py.  Naive datetimes are
equal exactly when all fields are equal. -/
structure Ts where
  year : Nat
  month : Nat
  day : Nat
  hour : Nat
  minute : Nat
  second : Nat
  usec : Nat
  deriving DecidableEq, Repr

/-- A Python Decimal: sign, coefficient and exponent (value ±m·10^e, with
trailing zeros of the coefficient significant for printing, as in
Decimal("1.00")), plus the special values.  The sign of a zero coefficient is
carried by neg. -/
inductive Dec where
  | fin (neg : Bool) (m : Nat) (e : Int) : Dec
  | inf (neg : Bool) : Dec
  | nan : Dec
  deriving DecidableEq, Repr

/-- Left-pad a numeral with zeros to the given width. -/
def padZeros (s : String) (w : Nat) : String :=
  String.mk (List.replicate (w - s.data.length) '0' ++ s.data)

/-- Numeric equality of two signed decimal forms n1·10^e1 and n2·10^e2. -/
def decValEq (n1 : Int) (e1 : Int) (n2 : Int) (e2 : Int) : Bool :=
  if e1 ≤ e2 then n1 == n2 * 10 ^ (e2 - e1).toNat
  else n1 * 10 ^ (e1 - e2).toNat == n2

/-- Python float ==: IEEE-754 equality.  On the decimal encoding, two finite
doubles are equal exactly when their shortest decimal forms are numerically
equal (each form round-trips to its double), which also identifies 0.0 with
-0.0; NaN is unequal to every float, including itself. -/
def feq : Fl → Fl → Bool
  | .fin s1 m1 e1, .fin s2 m2 e2 =>
      decValEq (if s1 then -(m1 : Int) else (m1 : Int)) e1
        (if s2 then -(m2 : Int) else (m2 : Int)) e2
  | .inf s1, .inf s2 => s1 == s2
  | _, _ => false

/-- Python Decimal ==: numeric comparison of the decimal forms (so
Decimal("1.0") equals Decimal("1.00") and -0 equals 0); NaN is unequal to
everything, including itself. -/
def deq : Dec → Dec → Bool
  | .fin s1 m1 e1, .fin s2 m2 e2 =>
      decValEq (if s1 then -(m1 : Int) else (m1 : Int)) e1
        (if s2 then -(m2 : Int) else (m2 : Int)) e2
  | .inf s1, .inf s2 => s1 == s2
  | _, _ => false

/-- CPython float repr formatting of a finite positive decimal form m·10^e
(shortest digits already given by the encoding): positional when the adjusted
exponent lies in [-4, 16), with ".0" appended to integral values, otherwise
scientific d[.ddd]e±XX with a sign and at least two exponent digits. -/
def finRepr (m : Nat) (e : Int) : String :=
  let D := (toString m).data
  let L : Int := D.length
  let adj := e + L - 1
  if -4 ≤ adj ∧ adj < 16 then
    if 0 ≤ e then String.mk (D ++ List.replicate e.toNat '0') ++ ".0"
    else if L > -e then
      String.mk (D.take (L + e).toNat) ++ "." ++ String.mk (D.drop (L + e).toNat)
    else "0." ++ String.mk (List.replicate (-e - L).toNat '0' ++ D)
  else
    (match D with
     | [] => ""
     | d :: rest =>
        String.mk [d] ++ (if rest.isEmpty then "" else "." ++ String.mk rest)) ++
    "e" ++ (if adj < 0 then "-" else "+") ++ padZeros (toString adj.natAbs) 2

/-- datetime.isoformat(): YYYY-MM-DDTHH:MM:SS with a .ffffff microsecond
suffix exactly when the microsecond is nonzero (naive datetimes carry no
offset). -/
def isoformat (t : Ts) : String :=
  padZeros (toString t.year) 4 ++ "-" ++ padZeros (toString t.month) 2 ++ "-" ++
  padZeros (toString t.day) 2 ++ "T" ++ padZeros (toString t.hour) 2 ++ ":" ++
  padZeros (toString t.minute) 2 ++ ":" ++ padZeros (toString t.second) 2 ++
  (if t.usec = 0 then "" else "." ++ padZeros (toString t.usec) 6)

/-- str(Decimal): the decimal specification to-scientific-string.  Positional
when exponent ≤ 0 and adjusted exponent ≥ -6, else scientific d[.ddd]E±X with
a mandatory exponent sign and no zero padding. -/
def strDec : Dec → String
  | .nan => "NaN"
  | .inf neg => if neg then "-Infinity" else "Infinity"
  | .fin neg m e =>
      (if neg then "-" else "") ++
      (let D := (toString m).data
       let L : Int := D.length
       let adj := e + L - 1
       if e ≤ 0 ∧ -6 ≤ adj then
         if e = 0 then String.mk D
         else if L > -e then
           String.mk (D.take (L + e).toNat) ++ "." ++ String.mk (D.drop (L + e).toNat)
         else "0." ++ String.mk (List.replicate (-e - L).toNat '0' ++ D)
       else
         (match D with
          | [] => ""
          | d :: rest =>
             String.mk [d] ++ (if rest.isEmpty then "" else "." ++ String.mk rest)) ++
         "E" ++ (if adj < 0 then "-" else "+") ++ toString adj.natAbs)

/-- One byte of bytes.__repr__ under the chosen quote character q: backslash,
the quote, tab, newline and carriage return are backslash-escaped, printable
ASCII is literal, everything else is a lowercase hex escape. -/
def byteRepr (q : Nat) (b : Nat) : List Char :=
  if b = 92 then ['\\', '\\']
  else if b = q then ['\\', Char.ofNat q]
  else if b = 9 then ['\\', 't']
  else if b = 10 then ['\\', 'n']
  else if b = 13 then ['\\', 'r']
  else if 32 ≤ b ∧ b < 127 then [Char.ofNat b]
  else ['\\', 'x', Nat.digitChar (b / 16 % 16), Nat.digitChar (b % 16)]

/-- Python str(value) for a bytes value, i.e. bytes.__repr__: a b prefix and
quoted escaped bytes, quoted with a single quote unless the bytes contain one
and no double quote. -/
def bytesRepr (bs : List Nat) : String :=
  let q : Nat := if 39 ∈ bs ∧ 34 ∉ bs then 34 else 39
  "b" ++ String.mk ([Char.ofNat q] ++ (bs.map (byteRepr q)).flatten ++ [Char.ofNat q])

/-- A document value: the tagged sum the spec document model names and
compare.py dispatches on (None, bool, int, float, str, bytes,
datetime.datetime, decimal.Decimal, list, dict). -/
inductive Value where
  | null : Value
  | bool (b : Bool) : Value
  | int (n : Int) : Value
  | float (x : Fl) : Value
  | str (s : String) : Value
  | bytes (bs : List Nat) : Value
  | ts (t : Ts) : Value
  | dec (d : Dec) : Value
  | arr (elems : List Value) : Value
  | doc (fields : List (String × Value)) : Value
  deriving Repr

mutual

/-- Structural equality on values, mirroring Python equality on the embedded
value kinds (mutual with lists of values and field lists). -/
def beqV : Value → Value → Bool
  | .null, .null => true
  | .bool a, .bool b => a == b
  | .int a, .int b => a == b
  | .str a, .str b => a == b
  | .float a, .float b => a == b
  | .bytes a, .bytes b => a == b
  | .ts a, .ts b => a == b
  | .dec a, .dec b => a == b
  | .arr a, .arr b => beqArr a b
  | .doc a, .doc b => beqFields a b
  | _, _ => false

/-- Equality on lists of values. -/
def beqArr : List Value → List Value → Bool
  | [], [] => true
  | a :: as, b :: bs => beqV a b && beqArr as bs
  | _, _ => false

/-- Equality on field lists. -/
def beqFields : List (String × Value) → List (String × Value) → Bool
  | [], [] => true
  | (ka, va) :: as, (kb, vb) :: bs => ka == kb && (beqV va vb && beqFields as bs)
  | _, _ => false

end

mutual

theorem beqV_eq : ∀ {a b : Value}, beqV a b = true → a = b
  | .null, .null, _ => rfl
  | .bool _, .bool _, h => by
      simp only [beqV, beq_iff_eq] at h; simp [h]
  | .int _, .int _, h => by
      simp only [beqV, beq_iff_eq] at h; simp [h]
  | .str _, .str _, h => by
      simp only [beqV, beq_iff_eq] at h; simp [h]
  | .float _, .float _, h => by
      simp only [beqV, beq_iff_eq] at h; simp [h]
  | .bytes _, .bytes _, h => by
      simp only [beqV, beq_iff_eq] at h; simp [h]
  | .ts _, .ts _, h => by
      simp only [beqV, beq_iff_eq] at h; simp [h]
  | .dec _, .dec _, h => by
      simp only [beqV, beq_iff_eq] at h; simp [h]
  | .arr a, .arr b, h => by
      simp only [beqV] at h
      simp [beqArr_eq h]
  | .doc a, .doc b, h => by
      simp only [beqV] at h
      simp [beqFields_eq h]

theorem beqArr_eq : ∀ {a b : List Value}, beqArr a b = true → a = b
  | [], [], _ => rfl
  | a :: as, b :: bs, h => by
      simp only [beqArr, Bool.and_eq_true] at h
      have h1 := beqV_eq h.1
      have h2 := beqArr_eq h.2
      simp [h1, h2]

theorem beqFields_eq : ∀ {a b : List (String × Value)}, beqFields a b = true → a = b
  | [], [], _ => rfl
  | (ka, va) :: as, (kb, vb) :: bs, h => by
      simp only [beqFields, Bool.and_eq_true, beq_iff_eq] at h
      have h1 := beqV_eq h.2.1
      have h2 := beqFields_eq h.2.2
      simp [h.1, h1, h2]

end

mutual

theorem beqV_refl : ∀ a : Value, beqV a a = true
  | .null => rfl
  | .bool b => by simp [beqV]
  | .int n => by simp [beqV]
  | .str s => by simp [beqV]
  | .float x => by simp [beqV]
  | .bytes bs => by simp [beqV]
  | .ts t => by simp [beqV]
  | .dec d => by simp [beqV]
  | .arr a => by simp [beqV, beqArr_refl a]
  | .doc a => by simp [beqV, beqFields_refl a]

theorem beqArr_refl : ∀ a : List Value, beqArr a a = true
  | [] => rfl
  | a :: as => by simp [beqArr, beqV_refl a, beqArr_refl as]

theorem beqFields_refl : ∀ a : List (String × Value), beqFields a a = true
  | [] => rfl
  | (k, v) :: as => by simp [beqFields, beqV_refl v, beqFields_refl as]

end

instance : DecidableEq Value := fun a b =>
  decidable_of_iff (beqV a b = true) ⟨beqV_eq, fun h => h ▸ beqV_refl a⟩

/-! ## Structural diff (compare.py) -/

/-- The source/target slot of a Diff record.  Python types it Any; the values
that actually occur are document values (with Python None represented by
`Value.null`, exactly as compare.py stores it), marker strings (type names and
len=N markers), and dict(Counter(...)) histograms.  A histogram is modelled as
its sorted key/count list: Python dict equality ignores insertion order, so
this canonical form is the faithful quotient. -/
inductive Payload where
  | val (v : Value) : Payload
  | text (s : String) : Payload
  | hist (h : List (String × Nat)) : Payload
  deriving DecidableEq, Repr

/-- A typed difference, compare.py class Diff. -/
structure Diff where
  path : String
  kind : String
  source : Payload
  target : Payload
  deriving DecidableEq, Repr

/-- compare.py _type_name. -/
def type_name : Value → String
  | .null => "null"
  | .bool _ => "bool"
  | .int _ => "int"
  | .float _ => "float"
  | .str _ => "str"
  | .bytes _ => "bytes"
  | .ts _ => "datetime"
  | .dec _ => "Decimal"
  | .arr _ => "list"
  | .doc _ => "dict"

/-- Python `type(a) is type(b)` on the embedded value kinds. -/
def sameType : Value → Value → Bool
  | .null, .null => true
  | .bool _, .bool _ => true
  | .int _, .int _ => true
  | .str _, .str _ => true
  | .float _, .float _ => true
  | .bytes _, .bytes _ => true
  | .ts _, .ts _ => true
  | .dec _, .dec _ => true
  | .arr _, .arr _ => true
  | .doc _, .doc _ => true
  | _, _ => false

/-- compare.py _values_equal: Python ==.  _diff consults it only for
same-type non-container operands (the None/None, type identity, dict and
list branches all come first), where Python equality is structural except on
floats and decimals, which compare numerically with NaN unequal to
everything, including itself.  The cross-kind numeric equalities Python
defines (int == float, bool == int, Decimal == int, ...) are unreachable
behind the type(a) is type(b) gate, so the structural answer values_equal
gives on mixed kinds is never consulted by the diff. -/
def values_equal (a b : Value) : Bool :=
  match a, b with
  | .float x, .float y => feq x y
  | .dec x, .dec y => deq x y
  | _, _ => beqV a b

/-- compare.py `path or "$"`. -/
def pathOr (path : String) : String := if path = "" then "$" else path

/-- compare.py path building for a dict key:
next_path = path.k when path is non-empty, else k. -/
def dotExtend (path k : String) : String := if path = "" then k else path ++ "." ++ k

/-- compare.py path building for a sequence index: path[i]. -/
def idxExtend (path : String) (i : Nat) : String := path ++ "[" ++ toString i ++ "]"

/-- compare.py _build_exclude_sets: partition exclude_fields by whether the
entry contains a dot (Python builds two sets; membership is all that is used,
so they are modelled as the two sublists). -/
def build_exclude_sets (exclude_fields : List String) : List String × List String :=
  (exclude_fields.filter (fun f => !(f.contains '.')),
   exclude_fields.filter (fun f => f.contains '.'))

mutual

/-- compare.py _prune on a value. -/
def pruneV (xa xp : List String) : Value → String → Value
  | .doc fields, path => .doc (pruneFields xa xp fields path)
  | .arr elems, path => .arr (pruneArr xa xp elems path)
  | v, _ => v

/-- compare.py _prune on the elements of a list (the path is unchanged). -/
def pruneArr (xa xp : List String) : List Value → String → List Value
  | [], _ => []
  | v :: vs, path => pruneV xa xp v path :: pruneArr xa xp vs path

/-- compare.py _prune on the fields of a dict: a field is dropped when its
name is in the bare set or its rooted dotted path is in the dotted set. -/
def pruneFields (xa xp : List String) : List (String × Value) → String → List (String × Value)
  | [], _ => []
  | (k, v) :: fs, path =>
      let next_path := dotExtend path k
      if k ∈ xa ∨ next_path ∈ xp then pruneFields xa xp fs path
      else (k, pruneV xa xp v next_path) :: pruneFields xa xp fs path

end

/-- JSON string escaping as json.dumps applies it with ensure_ascii=False:
quote, backslash and control characters are escaped, everything else is
emitted literally. -/
def jsonEscapeChar (c : Char) : String :=
  if c = '"' then "\\\""
  else if c = '\\' then "\\\\"
  else if c = '\n' then "\\n"
  else if c = '\t' then "\\t"
  else if c = '\r' then "\\r"
  else if c.toNat < 32 then
    "\\u00" ++ String.mk [Nat.digitChar (c.toNat / 16), Nat.digitChar (c.toNat % 16)]
  else String.mk [c]

/-- JSON escaping of a whole string. -/
def jsonEscape (s : String) : String :=
  String.join (s.data.map jsonEscapeChar)

mutual

/-- compare.py _canonicalize: json.dumps(value, sort_keys=True,
ensure_ascii=False, default=_json_default) with default separators and dict
items sorted by key.  json.dumps renders floats natively through
float.__repr__, with the allow_nan tokens NaN, Infinity and -Infinity for
the special values; every non-JSON-native kind goes through _json_default,
which returns datetime.isoformat() for datetimes and str(value) for
everything else - so bytes canonicalize as their b-prefixed Python repr, not
as hex (hex encoding exists only in serialization.py, the journal
serializer) - and json.dumps then emits that text as a quoted, escaped JSON
string. -/
def canonV : Value → String
  | .null => "null"
  | .bool true => "true"
  | .bool false => "false"
  | .int n => toString n
  | .float (.fin neg m e) => (if neg then "-" else "") ++ finRepr m e
  | .float (.inf neg) => if neg then "-Infinity" else "Infinity"
  | .float .nan => "NaN"
  | .str s => "\"" ++ jsonEscape s ++ "\""
  | .bytes bs => "\"" ++ jsonEscape (bytesRepr bs) ++ "\""
  | .ts t => "\"" ++ jsonEscape (isoformat t) ++ "\""
  | .dec d => "\"" ++ jsonEscape (strDec d) ++ "\""
  | .arr es => "[" ++ String.intercalate ", " (canonArr es) ++ "]"
  | .doc fs =>
      "\x7b" ++
        String.intercalate ", "
          ((List.insertionSort (fun a b => a.1 ≤ b.1) (canonFields fs)).map
            (fun p => "\"" ++ jsonEscape p.1 ++ "\": " ++ p.2)) ++
      "\x7d"

/-- Canonical strings of the elements of a list. -/
def canonArr : List Value → List String
  | [] => []
  | v :: vs => canonV v :: canonArr vs

/-- Keys paired with canonical strings of the values of a dict. -/
def canonFields : List (String × Value) → List (String × String)
  | [] => []
  | (k, v) :: fs => (k, canonV v) :: canonFields fs

end

/-- dict(Counter(xs)) modelled as the sorted key/count list. -/
def histOf (xs : List String) : List (String × Nat) :=
  (List.insertionSort (· ≤ ·) xs.dedup).map (fun s => (s, xs.count s))

/-- compare.py `sorted(set(a.keys()) | set(b.keys()))`. -/
def unionKeys (fa fb : List (String × Value)) : List String :=
  List.insertionSort (· ≤ ·) ((fa.map Prod.fst ++ fb.map Prod.fst).dedup)

/-- compare.py _diff_list_insensitive: canonicalize both element lists and
compare as multisets (Counter equality is multiset equality of the canonical
strings); on inequality emit one value_mismatch carrying both histograms. -/
def diff_list_insensitive (la lb : List Value) (path : String) : List Diff :=
  let ca := la.map canonV
  let cb := lb.map canonV
  if ca.Perm cb then []
  else [⟨pathOr path, "value_mismatch", .hist (histOf ca), .hist (histOf cb)⟩]

theorem sizeOf_lookup {fa : List (String × Value)} {k : String} {v : Value}
    (h : List.lookup k fa = some v) : sizeOf v < sizeOf fa := by
  induction fa with
  | nil => simp [List.lookup] at h
  | cons hd tl ih =>
      obtain ⟨k', v'⟩ := hd
      simp only [List.lookup] at h
      split at h
      · cases h
        simp
        omega
      · have := ih h
        simp
        omega

mutual

/-- compare.py _diff: the structural recursive walk. -/
def diffV (P : List String) (a b : Value) (path : String) : List Diff :=
  if a = .null ∧ b = .null then []
  else if sameType a b = false then
    [⟨pathOr path, "type_mismatch", .text (type_name a), .text (type_name b)⟩]
  else match a, b with
  | .doc fa, .doc fb => diffKeys P (unionKeys fa fb) fa fb path
  | .arr la, .arr lb =>
      if path ∈ P then diff_list_insensitive la lb path
      else
        (if la.length ≠ lb.length then
          [⟨pathOr path, "value_mismatch",
            .text ("len=" ++ toString la.length), .text ("len=" ++ toString lb.length)⟩]
         else []) ++ diffListS P la lb path 0
  | a, b => if values_equal a b then [] else [⟨pathOr path, "value_mismatch", .val a, .val b⟩]
termination_by (sizeOf a + sizeOf b, 1, 0)
decreasing_by
  all_goals exact Prod.Lex.left _ _ (by simp <;> omega)

/-- compare.py _diff, dict case: walk the sorted union of keys; keys present
on one side only yield missing_in_source / missing_in_target, common keys
recurse. -/
def diffKeys (P : List String) :
    List String → List (String × Value) → List (String × Value) → String → List Diff
  | [], _, _, _ => []
  | k :: rest, fa, fb, path =>
      (match hfa : List.lookup k fa, hfb : List.lookup k fb with
       | none, some v => [⟨dotExtend path k, "missing_in_source", .val .null, .val v⟩]
       | some v, none => [⟨dotExtend path k, "missing_in_target", .val v, .val .null⟩]
       | some va, some vb => diffV P va vb (dotExtend path k)
       | none, none => []) ++ diffKeys P rest fa fb path
termination_by ks fa fb path => (sizeOf fa + sizeOf fb, 0, ks.length)
decreasing_by
  all_goals first
    | exact Prod.Lex.left _ _ (by
        have h1 := sizeOf_lookup hfa
        have h2 := sizeOf_lookup hfb
        omega)
    | exact Prod.Lex.right _ (Prod.Lex.right _ (by simp))

/-- compare.py _diff_list_sensitive after the length check: pairwise recursion
over the common prefix, then per-index missing records for the longer tail. -/
def diffListS (P : List String) : List Value → List Value → String → Nat → List Diff
  | [], [], _, _ => []
  | a :: as, b :: bs, path, i =>
      diffV P a b (idxExtend path i) ++ diffListS P as bs path (i + 1)
  | a :: as, [], path, i =>
      ⟨idxExtend path i, "missing_in_target", .val a, .val .null⟩ ::
        diffListS P as [] path (i + 1)
  | [], b :: bs, path, i =>
      ⟨idxExtend path i, "missing_in_source", .val .null, .val b⟩ ::
        diffListS P [] bs path (i + 1)
termination_by la lb path i => (sizeOf la + sizeOf lb, 0, 0)
decreasing_by
  all_goals exact Prod.Lex.left _ _ (by simp <;> omega)

end

/-- compare.py compare_documents: build the exclude sets, prune both
documents, and diff from the empty root path. -/
def compare_documents (source_doc target_doc : List (String × Value))
    (exclude_fields : List String) (array_order_insensitive_paths : List String) : List Diff :=
  let xs := build_exclude_sets exclude_fields
  diffV array_order_insensitive_paths
    (pruneV xs.1 xs.2 (.doc source_doc) "")
    (pruneV xs.1 xs.2 (.doc target_doc) "")
    ""

/-! ## Sampling engine (sampling.py) -/

section Sampling

variable {α : Type} [DecidableEq α] [LinearOrder α]

/-- Python heapq stores the pair (-score(key), key); heap[0] is the least
pair, i.e. the entry with the greatest score, ties broken towards the
smallest key.  Of two entries, the one heappop would keep longer wins. -/
def heapWorse (score : α → Nat) (a b : α) : α :=
  if score a < score b ∨ (score a = score b ∧ b < a) then b else a

/-- The entry heappop removes: greatest score, smallest key among those. -/
def heapWorst (score : α → Nat) : List α → Option α
  | [] => none
  | x :: xs => some (xs.foldl (heapWorse score) x)

/-- One iteration of the scan loop of select_deterministic_keys: push while
the heap is under-filled, else heappop/heappush when the incoming score is
strictly below the current heap maximum.  The heap is modelled by its
contents; the stored score of an entry is determined by its key. -/
def heapPush (sample_size : Nat) (score : α → Nat) (x : α) (h : List α) : List α :=
  if h.length < sample_size then x :: h
  else match heapWorst score h with
    | none => h
    | some w => if score x < score w then x :: h.erase w else h

/-- The scan loop of select_deterministic_keys over the stream yielded by
iter_business_keys: scanned counts every yielded key, the loop breaks as soon
as scanned exceeds max_scan_keys, and None keys are skipped. -/
def selectScan (sample_size : Nat) (score : α → Nat) (max_scan_keys : Option Nat) :
    List (Option α) → Nat → List α → List α
  | [], _, h => h
  | kv :: rest, scanned, h =>
      if (match max_scan_keys with | some cap => decide (cap < scanned + 1) | none => false) then h
      else match kv with
        | none => selectScan sample_size score max_scan_keys rest (scanned + 1) h
        | some x =>
            selectScan sample_size score max_scan_keys rest (scanned + 1)
              (heapPush sample_size score x h)

/-- sampling.py select_deterministic_keys with the scoring function
abstracted: score stands for fun k => _stable_score(seed, k), the unsigned
64-bit big-endian prefix of SHA-256 of the seed and key (hashlib is an
external library; theorems that need it assume the scores are
collision-free).  Returns the kept keys sorted ascending by score. -/
def select_deterministic_keys (sample_size : Nat) (score : α → Nat)
    (max_scan_keys : Option Nat) (stream : List (Option α)) : List α :=
  if sample_size = 0 then []
  else List.insertionSort (fun a b => score a ≤ score b)
    (selectScan sample_size score max_scan_keys stream 0 [])

end Sampling

/-! ## Sample size (sampling.py compute_sample_size) and Python floats

Python computes the percentage branch in IEEE-754 double arithmetic:
int(total * (percentage / 100.0)).  A positive double is modelled exactly as
a mantissa/exponent pair and the two arithmetic operations round to nearest,
ties to even, as IEEE-754 prescribes.  Overflow and subnormals are outside
the range these computations reach (Python raises OverflowError converting
an int at or beyond 2^1024 to float). -/

/-- Bit length of a positive natural number, fuel-driven so that the kernel
can evaluate it; the fuel 4096 covers every value below 2^4096, far beyond
the double range. -/
def bitsF : Nat → Nat → Nat
  | 0, _ => 0
  | f + 1, n => if n = 0 then 0 else bitsF f (n / 2) + 1

/-- Floor of log2 of a positive natural number below 2^4096. -/
def ilog2 (n : Nat) : Nat := bitsF 4096 n - 1

/-- Floor of log2 of the positive rational n / d. -/
def ilog2Q (n d : Nat) : Int :=
  let k := ilog2 d + 64
  (ilog2 ((n <<< k) / d) : Int) - k

/-- A positive IEEE-754 double: the value m * 2^e with 2^52 <= m < 2^53. -/
structure FP where
  m : Nat
  e : Int
  deriving DecidableEq, Repr

/-- Round the positive rational n / d to the nearest double, ties to even. -/
def flRound (n d : Nat) : FP :=
  let t : Int := ilog2Q n d
  let shift : Int := 52 - t
  let nn := if 0 ≤ shift then n * 2 ^ shift.toNat else n
  let dd := if 0 ≤ shift then d else d * 2 ^ (-shift).toNat
  let q := nn / dd
  let r := nn % dd
  let m := if dd < 2 * r then q + 1 else if 2 * r < dd then q else if q % 2 = 1 then q + 1 else q
  if m = 2 ^ 53 then ⟨2 ^ 52, t - 51⟩ else ⟨m, t - 52⟩

/-- Python float division on positive doubles (correctly rounded). -/
def fdiv (a b : FP) : FP :=
  let e := a.e - b.e
  if 0 ≤ e then flRound (a.m * 2 ^ e.toNat) b.m else flRound a.m (b.m * 2 ^ (-e).toNat)

/-- Python float multiplication on positive doubles (correctly rounded). -/
def fmul (a b : FP) : FP :=
  let e := a.e + b.e
  if 0 ≤ e then flRound (a.m * b.m * 2 ^ e.toNat) 1 else flRound (a.m * b.m) (2 ^ (-e).toNat)

/-- Python int() truncation of a positive double. -/
def ftrunc (a : FP) : Nat :=
  if 0 ≤ a.e then a.m * 2 ^ a.e.toNat else a.m / 2 ^ (-a.e).toNat

/-- sampling.py compute_sample_size.  total and count are Python ints;
percentage is a Python float, and the percentage branch is computed in
double arithmetic exactly as Python does: int(total * (percentage / 100.0)).
The none/none case is unreachable (config validation requires exactly one of
percentage and count; the code asserts count is not None). -/
def compute_sample_size (total : Int) (percentage : Option FP) (count : Option Int) : Int :=
  if total ≤ 0 then 0
  else match percentage with
  | some p =>
      let size : Int := ftrunc (fmul (flRound total.toNat 1) (fdiv p (flRound 100 1)))
      max 1 (min total size)
  | none => match count with
      | some c => max 1 (min total c)
      | none => 0

/-! ## Orchestrator statistics, candidates and journal
(orchestrator.py run_compare, reporting.py) -/

/-- reporting.py CollectionStats (counters only; the collection name plays no
role in the claims). -/
structure CollectionStats where
  source_total : Nat
  target_total : Nat
  sampled : Nat
  found_in_both : Nat := 0
  missing_in_target : Nat := 0
  source_missing_business_key : Nat := 0
  matched : Nat := 0
  mismatched : Nat := 0
  deriving DecidableEq, Repr

/-- orchestrator.py src_doc.get(business_key) combined with the
`if key_value is None` check: a flat top-level lookup; the stored value None
and an absent key are both treated as missing. -/
def flatKeyValue (business_key : String) (d : List (String × Value)) : Option Value :=
  match List.lookup business_key d with
  | some v => if v = .null then none else some v
  | none => none

/-- orchestrator.py candidate extraction (lines 87-93): each sampled document
either contributes its flat business-key value as a candidate or increments
source_missing_business_key and is dropped. -/
def extractCandidates (business_key : String) :
    List (List (String × Value)) → List (Value × List (String × Value)) × Nat
  | [] => ([], 0)
  | d :: ds =>
      let rest := extractCandidates business_key ds
      match flatKeyValue business_key d with
      | none => (rest.1, rest.2 + 1)
      | some v => ((v, d) :: rest.1, rest.2)

/-- The outcome of orchestrator.py compare_one for a single candidate:
result kind ("missing" | "mismatch" | "match"), key value, source document,
target document when found, and the diffs. -/
def compare_one (target : Value → Option (List (String × Value)))
    (exclude_fields array_order_insensitive_paths : List String)
    (item : Value × List (String × Value)) :
    String × Value × List (String × Value) × Option (List (String × Value)) × List Diff :=
  match target item.1 with
  | none => ("missing", item.1, item.2, none, [])
  | some tgt =>
      let diffs := compare_documents item.2 tgt exclude_fields array_order_insensitive_paths
      if diffs = [] then ("match", item.1, item.2, some tgt, [])
      else ("mismatch", item.1, item.2, some tgt, diffs)

/-- One line of the per-collection mismatch journal,
reporting.py write_collection_mismatch_log (the wall-clock ts field is
external time and carries no information about the compared data). -/
structure MismatchRecord where
  business_key : String
  business_key_value : Value
  differences : List Diff
  source : List (String × Value)
  target : List (String × Value)
  deriving DecidableEq, Repr

/-- The journal record written for one mismatch result. -/
def recordOf (business_key : String)
    (r : String × Value × List (String × Value) × Option (List (String × Value)) × List Diff) :
    MismatchRecord :=
  ⟨business_key, r.2.1, r.2.2.2.2, r.2.2.1, (r.2.2.2.1).getD []⟩

/-- orchestrator.py result drain loop (lines 116-148): missing results count
missing_in_target; all others count found_in_both and then either append one
journal record and count mismatched, or count matched. -/
def drainResults (business_key : String) :
    List (String × Value × List (String × Value) ×
      Option (List (String × Value)) × List Diff) →
    CollectionStats → List MismatchRecord → CollectionStats × List MismatchRecord
  | [], stats, journal => (stats, journal)
  | r :: rest, stats, journal =>
      if r.1 = "missing" then
        drainResults business_key rest
          { stats with missing_in_target := stats.missing_in_target + 1 } journal
      else
        let stats := { stats with found_in_both := stats.found_in_both + 1 }
        if r.1 = "mismatch" then
          drainResults business_key rest
            { stats with mismatched := stats.mismatched + 1 }
            (journal ++ [recordOf business_key r])
        else
          drainResults business_key rest
            { stats with matched := stats.matched + 1 } journal

/-- One collection's run, orchestrator.py run_compare per-collection body:
clear the journal, build stats with sampled = number of sampled documents,
extract candidates (counting documents without a flat business-key value),
compare every candidate in order (executor.map preserves input order) and
drain the results.  journal0 is the journal file content left over from any
previous run; clear_collection_mismatch_log removes it first. -/
def run_collection (business_key : String)
    (exclude_fields array_order_insensitive_paths : List String)
    (target : Value → Option (List (String × Value)))
    (source_total target_total : Nat)
    (sampled : List (List (String × Value)))
    (journal0 : List MismatchRecord) : CollectionStats × List MismatchRecord :=
  let _ := journal0
  let cleared : List MismatchRecord := []
  let cand := extractCandidates business_key sampled
  let stats : CollectionStats :=
    { source_total := source_total, target_total := target_total,
      sampled := sampled.length, source_missing_business_key := cand.2 }
  drainResults business_key
    (cand.1.map (compare_one target exclude_fields array_order_insensitive_paths))
    stats cleared

/-! ## Run modes and per-collection config resolution
(orchestrator.py run_compare lines 29-47, config.py) -/

/-- config.py CollectionConfig. -/
structure CollectionConfig where
  business_key : Option String := none
  enabled : Bool := true
  exclude_fields : List String := []
  array_order_insensitive_paths : List String := []
  deriving DecidableEq, Repr

/-- orchestrator.py run_compare lines 29-34: the collection names the run
iterates over.  Python tests `if single_collection:`, which is false for
None and for the empty string. -/
def collectionsToRun (single_collection : Option String) (all_collections : Bool)
    (source_list : List String) (config_names : List String) : List String :=
  match single_collection with
  | some c =>
      if c = "" then (if all_collections then source_list else config_names) else [c]
  | none => if all_collections then source_list else config_names

/-- What run_compare does with one collection name (lines 38-47). -/
inductive CollectionOutcome where
  | processed (policy : CollectionConfig) : CollectionOutcome
  | skippedDisabled : CollectionOutcome
  | errorNoBusinessKey : CollectionOutcome
  deriving DecidableEq, Repr

/-- orchestrator.py c_cfg resolution: the explicit config entry when present,
else collection_defaults. -/
def policyOf (configs : List (String × CollectionConfig))
    (defaults : CollectionConfig) (name : String) : CollectionConfig :=
  (List.lookup name configs).getD defaults

/-- orchestrator.py per-collection gate: disabled collections are skipped;
enabled ones without a business key (None or empty, both falsy in Python)
raise ValueError; the rest are processed with the resolved policy. -/
def resolveCollection (configs : List (String × CollectionConfig))
    (defaults : CollectionConfig) (name : String) : CollectionOutcome :=
  let c_cfg := policyOf configs defaults name
  if c_cfg.enabled = false then .skippedDisabled
  else if c_cfg.business_key.getD "" = "" then .errorNoBusinessKey
  else .processed c_cfg

/-- config.py field-path segment regex [A-Za-z0-9_][A-Za-z0-9_-]* (ASCII). -/
def segOkChars : List Char → Bool
  | [] => false
  | c :: cs =>
      (c.isAlphanum || c = '_') && cs.all (fun d => d.isAlphanum || d = '_' || d = '-')

/-- Dot-splitting of a character list, as Python str.split("."). -/
def splitDots : List Char → List (List Char)
  | [] => [[]]
  | c :: cs =>
      if c = '.' then [] :: splitDots cs
      else match splitDots cs with
        | seg :: rest => (c :: seg) :: rest
        | [] => [[c]]

/-- config.py _as_field_path acceptance: a non-empty string all of whose
dot-separated parts match the segment regex. -/
def isFieldPath (s : String) : Bool :=
  s ≠ "" && (splitDots s.data).all segOkChars

/-- Dotted-path resolution of a field path, as the spec's FieldPath data
model defines addressing of nested fields.  config.py validates dotted
business keys against this shape, but the orchestrator never performs this
traversal - it only ever does the flat lookup flatKeyValue. -/
def nestedGet : List String → Value → Option Value
  | [], v => some v
  | s :: rest, .doc fields =>
      match List.lookup s fields with
      | some v => nestedGet rest v
      | none => none
  | _ :: _, _ => none

/-- Python dict assignment d[k] = v on an association list: replace in place
when the key exists, else append. -/
def dictUpsert (v : Value) (d : List (String × Value))
    (acc : List (Value × List (String × Value))) : List (Value × List (String × Value)) :=
  if acc.any (fun p => p.1 = v) then acc.map (fun p => if p.1 = v then (v, d) else p)
  else acc ++ [(v, d)]

/-- sampling.py _sample_documents_from_precomputed_buckets deduplication
(lines 308-312): each returned document is keyed by the same flat top-level
lookup doc.get(business_key) the orchestrator uses; documents whose flat
lookup is None are skipped (first None-check, then dict assignment). -/
def bucketDedup (business_key : String) :
    List (List (String × Value)) → List (Value × List (String × Value)) → List (Value × List (String × Value))
  | [], acc => acc
  | d :: ds, acc =>
      match flatKeyValue business_key d with
      | none => bucketDedup business_key ds acc
      | some v => bucketDedup business_key ds (dictUpsert v d acc)

/-! ## Proof-support definitions -/

/-- Concatenation of the non-first dotted segments, each preceded by a dot. -/
def joinDotsTail : List (List Char) → List Char
  | [] => []
  | s :: rest => '.' :: (s ++ joinDotsTail rest)

/-- Concatenation of dotted segments (left inverse of splitDots). -/
def joinDots : List (List Char) → List Char
  | [] => []
  | s :: rest => s ++ joinDotsTail rest

/-- A diff-path segment extends a prune-path segment by a (possibly empty)
trailing chain that starts with an index bracket. -/
def SegExt (pseg seg : List Char) : Prop :=
  ∃ t, seg = pseg ++ t ∧ (t = [] ∨ t.head? = some '[')

/-- Relation between the prune path pp of the value under scrutiny and the
diff path used for it: the diff path consists of leading index-only or empty
segments (arrays reached through empty keys) followed by segmentwise
extensions of the prune path. -/
def PathInv (pp path : String) : Prop :=
  ∃ bs rest, splitDots path.data = bs ++ rest ∧
    (∀ s ∈ bs, s = [] ∨ s.head? = some '[') ∧
    List.Forall₂ SegExt (splitDots pp.data) rest

/-- The conclusion of the exclusion claim for one diff path: no dotted
segment of it is a bare excluded name and it is not a dotted excluded
entry. -/
def PathOK (xa xp : List String) (p : String) : Prop :=
  (∀ f ∈ xa, f.data ∉ splitDots p.data) ∧ p ∉ xp

/-- Full invariant carried through the diff recursion. -/
def Inv (xa xp : List String) (pp path : String) : Prop :=
  PathInv pp path ∧ (∀ s ∈ splitDots pp.data, String.mk s ∉ xa) ∧ pp ∉ xp

mutual

/-- Every field name in the value is dot-free. -/
def keysNoDotV : Value → Bool
  | .doc fs => keysNoDotF fs
  | .arr es => keysNoDotA es
  | _ => true

/-- Every field name in the list elements is dot-free. -/
def keysNoDotA : List Value → Bool
  | [] => true
  | v :: vs => keysNoDotV v && keysNoDotA vs

/-- Every field name in the fields is dot-free, recursively. -/
def keysNoDotF : List (String × Value) → Bool
  | [] => true
  | (k, v) :: fs => decide ('.' ∉ k.data) && (keysNoDotV v && keysNoDotF fs)

end

mutual

/-- No float or decimal NaN anywhere in the value: NaN is exactly the value
Python == does not relate to itself, so NaN-freeness is what reflexivity of
_values_equal (and hence emptiness of diff-with-self) requires. -/
def noNaNV : Value → Bool
  | .float .nan => false
  | .dec .nan => false
  | .arr es => noNaNA es
  | .doc fs => noNaNF fs
  | _ => true

/-- No NaN in any element. -/
def noNaNA : List Value → Bool
  | [] => true
  | v :: vs => noNaNV v && noNaNA vs

/-- No NaN in any field value, recursively. -/
def noNaNF : List (String × Value) → Bool
  | [] => true
  | (_, v) :: fs => noNaNV v && noNaNF fs

end

/-- Shape of values as the prune phase leaves them (for documents whose field
names are dot-free): every surviving field name is dot-free, is not a bare
excluded name, its rooted prune path is not a dotted excluded entry, and its
value is cleaned at that prune path; list elements are cleaned at the
unchanged path. -/
inductive Cleaned (xa xp : List String) : String → Value → Prop where
  | null : ∀ pp, Cleaned xa xp pp .null
  | bool : ∀ pp b, Cleaned xa xp pp (.bool b)
  | int : ∀ pp n, Cleaned xa xp pp (.int n)
  | str : ∀ pp s, Cleaned xa xp pp (.str s)
  | float : ∀ pp x, Cleaned xa xp pp (.float x)
  | bytes : ∀ pp bs, Cleaned xa xp pp (.bytes bs)
  | ts : ∀ pp t, Cleaned xa xp pp (.ts t)
  | dec : ∀ pp d, Cleaned xa xp pp (.dec d)
  | arr : ∀ pp es, (∀ e ∈ es, Cleaned xa xp pp e) → Cleaned xa xp pp (.arr es)
  | doc : ∀ pp fs,
      (∀ kv ∈ fs, '.' ∉ (kv.1 : String).data) →
      (∀ kv ∈ fs, kv.1 ∉ xa) →
      (∀ kv ∈ fs, dotExtend pp kv.1 ∉ xp) →
      (∀ kv ∈ fs, Cleaned xa xp (dotExtend pp kv.1) kv.2) →
      Cleaned xa xp pp (.doc fs)

/-- The multiset m is a bottom-k-by-score selection from l: a sub-multiset of
the right cardinality every element of which scores no higher than anything
left out. -/
def IsBottomK {α : Type} [DecidableEq α] (score : α → Nat) (k : Nat) (m l : Multiset α) : Prop :=
  m ≤ l ∧ Multiset.card m = min k (Multiset.card l) ∧
    ∀ a ∈ m, ∀ b ∈ l - m, score a ≤ score b

/-! # Theorems -/

theorem sameType_refl (a : Value) : sameType a a = true := by
  cases a <;> rfl

theorem values_equal_refl : ∀ {a : Value}, noNaNV a = true → values_equal a a = true := by
  intro a h
  cases a with
  | float x =>
      cases x with
      | fin s m e => simp [values_equal, feq, decValEq]
      | inf s => simp [values_equal, feq]
      | nan => simp [noNaNV] at h
  | dec d =>
      cases d with
      | fin s m e => simp [values_equal, deq, decValEq]
      | inf s => simp [values_equal, deq]
      | nan => simp [noNaNV] at h
  | null => simp [values_equal, beqV]
  | bool b => simp [values_equal, beqV]
  | int n => simp [values_equal, beqV]
  | str s2 => simp [values_equal, beqV]
  | bytes bs => simp [values_equal, beqV]
  | ts t => simp [values_equal, beqV]
  | arr es => simp [values_equal, beqV, beqArr_refl]
  | doc fs => simp [values_equal, beqV, beqFields_refl]

theorem noNaNF_lookup {k : String} {v : Value} :
    ∀ {fs : List (String × Value)}, noNaNF fs = true → List.lookup k fs = some v →
      noNaNV v = true := by
  intro fs
  induction fs with
  | nil => intro _ h; cases h
  | cons kv tl ih =>
      obtain ⟨k2, v2⟩ := kv
      intro hn hl
      rw [noNaNF, Bool.and_eq_true] at hn
      rw [List.lookup] at hl
      by_cases hk : k = k2
      · rw [show (k == k2) = true from beq_iff_eq.mpr hk] at hl
        have h2 : some v2 = some v := hl
        injection h2 with h3
        subst h3
        exact hn.1
      · rw [show (k == k2) = false from beq_eq_false_iff_ne.mpr hk] at hl
        have h2 : List.lookup k tl = some v := hl
        exact ih hn.2 h2

theorem diff_self_noNaN (P : List String) :
    ∀ (a b : Value) (path : String), a = b → noNaNV a = true → diffV P a b path = [] := by
  refine diffV.induct P
    (fun a b path => a = b → noNaNV a = true → diffV P a b path = [])
    (fun la lb path i => la = lb → noNaNA la = true → diffListS P la lb path i = [])
    (fun ks fa fb path => fa = fb → noNaNF fa = true → diffKeys P ks fa fb path = [])
    ?_ ?_ ?_ ?_ ?_ ?_ ?_ ?_ ?_ ?_ ?_ ?_ ?_
  · rintro a b path ⟨rfl, rfl⟩ _ _
    rw [diffV.eq_def]; simp
  · intro a b path _ h2 heq _
    subst heq
    rw [sameType_refl] at h2; cases h2
  · intro path fa fb _ _ ih heq hnn
    injection heq with h; subst h
    rw [diffV.eq_def]
    simp only [sameType, Bool.true_eq_false, reduceCtorEq, and_self, if_false, ite_false]
    exact ih rfl (by simpa [noNaNV] using hnn)
  · intro path la lb hmem _ _ heq _
    injection heq with h; subst h
    rw [diffV.eq_def]
    simp only [sameType, Bool.true_eq_false, reduceCtorEq, and_self, if_false, ite_false]
    simp only [hmem, if_true, diff_list_insensitive]
    rw [if_pos (List.Perm.refl _)]
  · intro path la lb hmem _ _ ih heq hnn
    injection heq with h; subst h
    rw [diffV.eq_def]
    simp only [sameType, Bool.true_eq_false, reduceCtorEq, and_self, if_false, ite_false]
    simp only [hmem, if_false, ne_eq, not_true_eq_false, if_neg, List.nil_append]
    exact ih rfl (by simpa [noNaNV] using hnn)
  · intro path a b hdoc harr hveq h1 h2 _ _
    rw [diffV.eq_def]
    rw [if_neg h1, if_neg h2]
    split
    · exact (hdoc _ _ rfl rfl).elim
    · exact (harr _ _ rfl rfl).elim
    · rw [if_pos hveq]
  · intro path a b _ _ hveq _ _ heq hnn
    subst heq
    exact absurd (values_equal_refl hnn) hveq
  · intro x y _ _; rw [diffListS]
  · intro a as b bs path i ih1 ih2 heq hnn
    injection heq with h1 h2; subst h1; subst h2
    rw [noNaNA, Bool.and_eq_true] at hnn
    rw [diffListS, ih1 rfl hnn.1, ih2 rfl hnn.2]
    rfl
  · intro a as path i _ heq; cases heq
  · intro b bs path i _ heq; cases heq
  · intro x y z _ _; rw [diffKeys]
  · intro k rest fa fb path ihv ihrest heq hnn
    subst heq
    rw [diffKeys, ihrest rfl hnn, List.append_nil]
    split
    · rename_i v h1 h2; rw [h1] at h2; cases h2
    · rename_i v h1 h2; rw [h1] at h2; cases h2
    · rename_i va vb h1 h2
      have h3 := h1.symm.trans h2
      injection h3 with h4
      subst h4
      exact ihv va va h1 h2 rfl (noNaNF_lookup hnn h1)
    · rfl

mutual

theorem pruneV_noNaN (xa xp : List String) :
    ∀ (v : Value) (pp : String), noNaNV v = true → noNaNV (pruneV xa xp v pp) = true
  | .null, _, h => h
  | .bool _, _, h => h
  | .int _, _, h => h
  | .float _, _, h => h
  | .str _, _, h => h
  | .bytes _, _, h => h
  | .ts _, _, h => h
  | .dec _, _, h => h
  | .arr es, pp, h => by
      rw [pruneV]
      have h2 : noNaNA es = true := h
      exact pruneArr_noNaN xa xp es pp h2
  | .doc fs, pp, h => by
      rw [pruneV]
      have h2 : noNaNF fs = true := h
      exact pruneFields_noNaN xa xp fs pp h2

theorem pruneArr_noNaN (xa xp : List String) :
    ∀ (es : List Value) (pp : String), noNaNA es = true →
      noNaNA (pruneArr xa xp es pp) = true
  | [], _, _ => rfl
  | v :: vs, pp, h => by
      rw [noNaNA, Bool.and_eq_true] at h
      rw [pruneArr, noNaNA, Bool.and_eq_true]
      exact ⟨pruneV_noNaN xa xp v pp h.1, pruneArr_noNaN xa xp vs pp h.2⟩

theorem pruneFields_noNaN (xa xp : List String) :
    ∀ (fs : List (String × Value)) (pp : String), noNaNF fs = true →
      noNaNF (pruneFields xa xp fs pp) = true
  | [], _, _ => rfl
  | (k, v) :: fs, pp, h => by
      rw [noNaNF, Bool.and_eq_true] at h
      rw [pruneFields]
      by_cases hex : k ∈ xa ∨ dotExtend pp k ∈ xp
      · rw [if_pos hex]
        exact pruneFields_noNaN xa xp fs pp h.2
      · rw [if_neg hex, noNaNF, Bool.and_eq_true]
        exact ⟨pruneV_noNaN xa xp v (dotExtend pp k) h.1, pruneFields_noNaN xa xp fs pp h.2⟩

end

/-- C4 (counterexample to the claim as stated): the spec document model
includes floating-point values and Python NaN is unequal to itself, so a
document holding NaN diffs against itself to a value_mismatch rather than to
the empty list. -/
theorem C4_counterexample :
    compare_documents [("x", .float .nan)] [("x", .float .nan)] [] [] =
      [⟨"x", "value_mismatch", .val (.float .nan), .val (.float .nan)⟩] := by
  simp [compare_documents, build_exclude_sets, pruneV, pruneFields, pruneArr, dotExtend,
    idxExtend, diffV.eq_def, diffKeys, diffListS, sameType, unionKeys,
    diff_list_insensitive, pathOr, List.insertionSort, List.orderedInsert, List.lookup,
    type_name, values_equal, feq]

/-- C4 (amended): for every NaN-free document d, every set of excluded fields
X and every set of order-insensitive array paths P, diff(d, d, X, P) returns
the empty list of differences.  NaN-freeness is exactly what the claim needs:
Python == relates every other embedded value to itself, NaN to nothing. -/
theorem C4_amended_diff_self (d : List (String × Value)) (X P : List String)
    (h : noNaNF d = true) : compare_documents d d X P = [] := by
  unfold compare_documents
  refine diff_self_noNaN P _ _ "" rfl ?_
  exact pruneV_noNaN _ _ (.doc d) "" (by simpa [noNaNV] using h)

theorem C4_amended_witness :
    noNaNF [("a", Value.int 1), ("b", Value.float (Fl.fin false 15 (-1)))] = true ∧
    compare_documents [("a", Value.int 1), ("b", Value.float (Fl.fin false 15 (-1)))]
      [("a", Value.int 1), ("b", Value.float (Fl.fin false 15 (-1)))] ["a"] ["b"] = [] := by
  constructor
  · rfl
  · exact C4_amended_diff_self _ _ _ (by rfl)


theorem drain_missing (bk : String) (rs) : ∀ s j, (drainResults bk rs s j).1.missing_in_target =
    s.missing_in_target + (rs.filter (fun r => r.1 == "missing")).length := by
  induction rs with
  | nil => intro s j; simp [drainResults]
  | cons r rest ih =>
      intro s j
      rw [drainResults]
      by_cases h : r.1 = "missing"
      · simp [h, ih, List.filter_cons]; omega
      · by_cases h2 : r.1 = "mismatch" <;> simp [h, h2, ih, List.filter_cons]

theorem drain_found (bk : String) (rs) : ∀ s j, (drainResults bk rs s j).1.found_in_both =
    s.found_in_both + (rs.filter (fun r => !(r.1 == "missing"))).length := by
  induction rs with
  | nil => intro s j; simp [drainResults]
  | cons r rest ih =>
      intro s j
      rw [drainResults]
      by_cases h : r.1 = "missing"
      · simp [h, ih, List.filter_cons]
      · by_cases h2 : r.1 = "mismatch" <;> simp [h, h2, ih, List.filter_cons] <;> omega

theorem drain_mismatched (bk : String) (rs) : ∀ s j, (drainResults bk rs s j).1.mismatched =
    s.mismatched + (rs.filter (fun r => r.1 == "mismatch")).length := by
  induction rs with
  | nil => intro s j; simp [drainResults]
  | cons r rest ih =>
      intro s j
      rw [drainResults]
      by_cases h : r.1 = "missing"
      · have : ¬ r.1 = "mismatch" := by rw [h]; decide
        simp [h, this, ih, List.filter_cons]
      · by_cases h2 : r.1 = "mismatch" <;> simp [h, h2, ih, List.filter_cons] <;> omega

theorem drain_matched (bk : String) (rs) : ∀ s j, (drainResults bk rs s j).1.matched =
    s.matched + (rs.filter (fun r => !(r.1 == "missing") && !(r.1 == "mismatch"))).length := by
  induction rs with
  | nil => intro s j; simp [drainResults]
  | cons r rest ih =>
      intro s j
      rw [drainResults]
      by_cases h : r.1 = "missing"
      · simp [h, ih, List.filter_cons]
      · by_cases h2 : r.1 = "mismatch" <;> simp [h, h2, ih, List.filter_cons] <;> omega

theorem drain_sampled (bk : String) (rs) : ∀ s j, (drainResults bk rs s j).1.sampled = s.sampled := by
  induction rs with
  | nil => intro s j; simp [drainResults]
  | cons r rest ih =>
      intro s j
      rw [drainResults]
      by_cases h : r.1 = "missing"
      · simp [h, ih]
      · by_cases h2 : r.1 = "mismatch" <;> simp [h, h2, ih]

theorem drain_smbk (bk : String) (rs) : ∀ s j,
    (drainResults bk rs s j).1.source_missing_business_key = s.source_missing_business_key := by
  induction rs with
  | nil => intro s j; simp [drainResults]
  | cons r rest ih =>
      intro s j
      rw [drainResults]
      by_cases h : r.1 = "missing"
      · simp [h, ih]
      · by_cases h2 : r.1 = "mismatch" <;> simp [h, h2, ih]

theorem drain_journal (bk : String) (rs) : ∀ s j, (drainResults bk rs s j).2 =
    j ++ (rs.filter (fun r => r.1 == "mismatch")).map (recordOf bk) := by
  induction rs with
  | nil => intro s j; simp [drainResults]
  | cons r rest ih =>
      intro s j
      rw [drainResults]
      by_cases h : r.1 = "missing"
      · have : ¬ r.1 = "mismatch" := by rw [h]; decide
        simp [h, this, ih, List.filter_cons]
      · by_cases h2 : r.1 = "mismatch" <;> simp [h, h2, ih, List.filter_cons]

theorem extract_count (bk : String) (ds : List (List (String × Value))) :
    (extractCandidates bk ds).1.length + (extractCandidates bk ds).2 = ds.length := by
  induction ds with
  | nil => simp [extractCandidates]
  | cons d rest ih =>
      rw [extractCandidates]
      cases h : flatKeyValue bk d <;> simp [h] <;> omega


theorem count_split (rs : List (String × Value × List (String × Value) ×
    Option (List (String × Value)) × List Diff)) :
    (rs.filter (fun r => !(r.1 == "missing") && !(r.1 == "mismatch"))).length +
      (rs.filter (fun r => r.1 == "mismatch")).length =
    (rs.filter (fun r => !(r.1 == "missing"))).length := by
  induction rs with
  | nil => simp
  | cons r rest ih =>
      by_cases h : r.1 = "missing"
      · have : ¬ r.1 = "mismatch" := by rw [h]; decide
        simp [List.filter_cons, h, this, ih]
      · by_cases h2 : r.1 = "mismatch" <;> simp [List.filter_cons, h, h2] <;> omega

theorem count_miss_split (rs : List (String × Value × List (String × Value) ×
    Option (List (String × Value)) × List Diff)) :
    (rs.filter (fun r => !(r.1 == "missing"))).length +
      (rs.filter (fun r => r.1 == "missing")).length = rs.length := by
  induction rs with
  | nil => simp
  | cons r rest ih =>
      by_cases h : r.1 = "missing" <;> simp [List.filter_cons, h] <;> omega

/-- C1: after a collection's run, matched + mismatched = found_in_both and
found_in_both + missing_in_target + source_missing_business_key = sampled,
where sampled is the number of documents the sampling engine returned. -/
theorem C1_stats_accounting (bk : String) (excl insens : List String)
    (target : Value → Option (List (String × Value))) (st tt : Nat)
    (sampled : List (List (String × Value))) (j0 : List MismatchRecord) :
    (run_collection bk excl insens target st tt sampled j0).1.matched +
        (run_collection bk excl insens target st tt sampled j0).1.mismatched =
      (run_collection bk excl insens target st tt sampled j0).1.found_in_both ∧
    (run_collection bk excl insens target st tt sampled j0).1.found_in_both +
        (run_collection bk excl insens target st tt sampled j0).1.missing_in_target +
        (run_collection bk excl insens target st tt sampled j0).1.source_missing_business_key =
      (run_collection bk excl insens target st tt sampled j0).1.sampled := by
  unfold run_collection
  constructor
  · rw [drain_matched, drain_mismatched, drain_found]
    simpa using count_split _
  · rw [drain_found, drain_missing, drain_smbk, drain_sampled]
    simp only [Nat.zero_add]
    have h1 := count_miss_split
      ((extractCandidates bk sampled).1.map (compare_one target excl insens))
    have h2 := extract_count bk sampled
    simp only [List.length_map] at h1
    omega

/-- C9: the journal produced by a collection's run does not depend on the
journal content before the run (it is truncated first), and it holds exactly
the records of the mismatch results, one per document counted in mismatched
and none for matched or missing documents. -/
theorem C9_journal_exact (bk : String) (excl insens : List String)
    (target : Value → Option (List (String × Value))) (st tt : Nat)
    (sampled : List (List (String × Value))) (j0 : List MismatchRecord) :
    (run_collection bk excl insens target st tt sampled j0).2 =
      (((extractCandidates bk sampled).1.map (compare_one target excl insens)).filter
        (fun r => r.1 == "mismatch")).map (recordOf bk) ∧
    (run_collection bk excl insens target st tt sampled j0).2.length =
      (run_collection bk excl insens target st tt sampled j0).1.mismatched := by
  unfold run_collection
  constructor
  · rw [drain_journal]
    simp
  · rw [drain_journal, drain_mismatched]
    simp



/-- C10: the orchestrator extracts a sampled document's business-key value by
a flat top-level lookup of the configured key string, although configuration
validation accepts dotted field paths as business keys; a document that
stores a dotted business key only in nested form yields no extracted value,
is counted in source_missing_business_key and dropped, and the bucket
sampling deduplication skips it through the same flat lookup. -/
theorem C10_flat_lookup_drops_nested_keys (bk : String) (d : List (String × Value)) (v : Value)
    (hvalid : isFieldPath bk = true) (hdotted : '.' ∈ bk.data)
    (hnested : nestedGet ((splitDots bk.data).map (fun cs => String.mk cs)) (.doc d) = some v)
    (hflat : List.lookup bk d = none) :
    extractCandidates bk [d] = ([], 1) ∧ bucketDedup bk [d] [] = [] := by
  have hfk : flatKeyValue bk d = none := by unfold flatKeyValue; rw [hflat]
  constructor
  · rw [extractCandidates, extractCandidates]
    simp [hfk]
  · rw [bucketDedup, hfk, bucketDedup]

theorem C10_flat_lookup_witness :
    extractCandidates "a.b" [[("a", Value.doc [("b", Value.int 7)])]] = ([], 1) ∧
    bucketDedup "a.b" [[("a", Value.doc [("b", Value.int 7)])]] [] = [] :=
  C10_flat_lookup_drops_nested_keys "a.b" [("a", Value.doc [("b", Value.int 7)])] (Value.int 7)
    (by decide) (by decide) (by decide) (by decide)

/-- C3 as stated is false on the code: in all-collections mode the run
iterates the full source list and resolves entry-less collections against
collection_defaults, and in single-collection mode the given name need not
exist in the config.  Concretely: the source lists x and y, only x has a
config entry, yet y is iterated and processed with the defaults policy (so
the processed set is not the intersection with the config entries), and
single collection z, absent from the config, is still run with the defaults
policy. -/
theorem C3_counterexample :
    collectionsToRun none true ["x", "y"] ["x"] = ["x", "y"] ∧
    "y" ∉ (["x", "y"].filter
      (fun n => (List.lookup n [("x", ({ business_key := some "id" } : CollectionConfig))]).isSome)) ∧
    resolveCollection [("x", { business_key := some "id" })] { business_key := some "id" } "y" =
      .processed { business_key := some "id" } ∧
    List.lookup "z" [("x", ({ business_key := some "id" } : CollectionConfig))] = none ∧
    collectionsToRun (some "z") false ["x", "y"] ["x"] = ["z"] ∧
    resolveCollection [("x", { business_key := some "id" })] { business_key := some "id" } "z" =
      .processed { business_key := some "id" } := by
  refine ⟨rfl, by decide, by decide, by decide, rfl, by decide⟩

/-- C3 amended: in all-collections mode the run iterates exactly the source's
collection list and in single-collection mode exactly the given (non-empty)
name, without intersecting with or requiring config entries; a name without a
config entry is resolved against collection_defaults and is processed
whenever the defaults are enabled and carry a non-empty business key. -/
theorem C3_amended_run_modes (src names : List String) :
    collectionsToRun none true src names = src ∧
    (∀ c : String, c ≠ "" → collectionsToRun (some c) false src names = [c]) ∧
    (∀ (cfgs : List (String × CollectionConfig)) (dflt : CollectionConfig) (name : String),
      List.lookup name cfgs = none → dflt.enabled = true →
      ∀ bk : String, dflt.business_key = some bk → bk ≠ "" →
      resolveCollection cfgs dflt name = .processed dflt) := by
  refine ⟨rfl, ?_, ?_⟩
  · intro c hc
    simp [collectionsToRun, hc]
  · intro cfgs dflt name hlk hen bk hbk hne
    unfold resolveCollection policyOf
    rw [hlk]
    simp [hen, hbk, hne]

theorem C3_amended_witness :
    collectionsToRun (some "z") false ["x", "y"] ["x"] = ["z"] ∧
    resolveCollection [("x", { business_key := some "id" })] { business_key := some "id" } "z" =
      .processed { business_key := some "id" } :=
  ⟨(C3_amended_run_modes ["x", "y"] ["x"]).2.1 "z" (by decide),
   (C3_amended_run_modes ["x", "y"] ["x"]).2.2 [("x", { business_key := some "id" })]
     { business_key := some "id" } "z" (by decide) (by decide) "id" (by decide) (by decide)⟩

set_option maxRecDepth 100000 in
/-- C7: the claim's percentage formula max(1, min(T, floor(T * p / 100)))
does not match the code.  compute_sample_size computes
int(total * (percentage / 100.0)) in IEEE-754 double arithmetic; at
total = 100 and percentage = 29 the double product is slightly below 29 and
truncation yields 28, while the claimed exact formula yields 29.  (The
doubles involved are reproduced exactly: 29/100.0 has mantissa
5224175567749775 at exponent -54 and 100 * (29/100.0) has mantissa
8162774324609023 at exponent -48, matching Python float.as_integer_ratio.) -/
theorem C7_percentage_float_truncation :
    compute_sample_size 100 (some (flRound 29 1)) none = 28 ∧
    max 1 (min (100 : Int) ((100 * 29) / 100)) = 29 := by
  constructor
  · decide
  · decide


/-- C6 (amended): at a path configured order-insensitive, two sequences that
are permutations of each other produce no Diff, and sequences whose canonical
string multisets differ produce exactly one value_mismatch at that path
carrying the two multiset histograms.  Elements are canonicalized by
_canonicalize (canonV): documents keyed in sorted order, timestamps as
ISO-8601 and decimals as their decimal string, but bytes as their b-prefixed
Python repr via the str() fallback of _json_default - not as hex, contrary to
the claim as stated (hex encoding exists only in the journal serializer). -/
theorem C6_order_insensitive_arrays (P : List String) (la lb : List Value) (path : String)
    (hmem : path ∈ P) :
    (la.Perm lb → diffV P (.arr la) (.arr lb) path = []) ∧
    (¬ (la.map canonV).Perm (lb.map canonV) →
      diffV P (.arr la) (.arr lb) path =
        [⟨pathOr path, "value_mismatch",
          .hist (histOf (la.map canonV)), .hist (histOf (lb.map canonV))⟩]) := by
  have hbody : diffV P (.arr la) (.arr lb) path = diff_list_insensitive la lb path := by
    rw [diffV.eq_def]
    simp only [sameType, Bool.true_eq_false, reduceCtorEq, and_self, if_false, ite_false]
    simp [hmem]
  constructor
  · intro hperm
    rw [hbody]
    unfold diff_list_insensitive
    rw [if_pos (hperm.map canonV)]
  · intro hne
    rw [hbody]
    unfold diff_list_insensitive
    rw [if_neg hne]

theorem C6_order_insensitive_witness :
    diffV ["tags"] (.arr [.int 1, .int 2, .int 2]) (.arr [.int 2, .int 1, .int 2]) "tags" = [] :=
  (C6_order_insensitive_arrays ["tags"] [.int 1, .int 2, .int 2] [.int 2, .int 1, .int 2]
    "tags" (by decide)).1 (by decide)

section SamplingProofs

variable {α : Type} [DecidableEq α] [LinearOrder α]

theorem heapPush_mem (k : Nat) (score : α → Nat) (x : α) (h : List α) :
    ∀ y ∈ heapPush k score x h, y = x ∨ y ∈ h := by
  intro y hy
  unfold heapPush at hy
  by_cases hlen : h.length < k
  · rw [if_pos hlen] at hy
    exact (List.mem_cons.mp hy).imp id id
  · rw [if_neg hlen] at hy
    cases hw : heapWorst score h with
    | none => rw [hw] at hy; exact Or.inr hy
    | some w =>
        have hy2 : y ∈ (if score x < score w then x :: h.erase w else h) := by
          rw [hw] at hy; exact hy
        by_cases hs : score x < score w
        · rw [if_pos hs] at hy2
          rcases List.mem_cons.mp hy2 with h1 | h1
          · exact Or.inl h1
          · exact Or.inr (List.mem_of_mem_erase h1)
        · rw [if_neg hs] at hy2
          exact Or.inr hy2

theorem selectScan_cons (k : Nat) (score : α → Nat) (cap : Option Nat) (kv : Option α)
    (rest : List (Option α)) (scanned : Nat) (h : List α) :
    selectScan k score cap (kv :: rest) scanned h =
      if (match cap with | some c => decide (c < scanned + 1) | none => false) then h
      else match kv with
        | none => selectScan k score cap rest (scanned + 1) h
        | some x => selectScan k score cap rest (scanned + 1) (heapPush k score x h) := by
  rw [selectScan.eq_def]

theorem selectScan_mem (k : Nat) (score : α → Nat) (cap : Option Nat) :
    ∀ (l : List (Option α)) (scanned : Nat) (h : List α),
      ∀ x ∈ selectScan k score cap l scanned h, x ∈ h ∨ some x ∈ l := by
  intro l
  induction l with
  | nil => intro scanned h x hx; exact Or.inl hx
  | cons kv rest ih =>
      intro scanned h x hx
      rw [selectScan_cons] at hx
      cases hcond : (match cap with | some c => decide (c < scanned + 1) | none => false) with
      | true => rw [hcond, if_pos rfl] at hx; exact Or.inl hx
      | false =>
        rw [hcond] at hx
        rw [if_neg (by decide : ¬ (false = true))] at hx
        cases kv with
        | none =>
            rcases ih (scanned + 1) h x hx with h1 | h1
            · exact Or.inl h1
            · exact Or.inr (List.mem_cons_of_mem _ h1)
        | some z =>
            rcases ih (scanned + 1) (heapPush k score z h) x hx with h1 | h1
            · rcases heapPush_mem k score z h x h1 with h2 | h2
              · exact Or.inr (by rw [h2]; exact List.mem_cons_self _ _)
              · exact Or.inl h2
            · exact Or.inr (List.mem_cons_of_mem _ h1)

theorem selectScan_cap (k K : Nat) (score : α → Nat) :
    ∀ (l : List (Option α)) (scanned : Nat) (h : List α), scanned ≤ K →
      selectScan k score (some K) l scanned h =
        selectScan k score none (l.take (K - scanned)) scanned h := by
  intro l
  induction l with
  | nil => intro scanned h _; simp [selectScan]
  | cons kv rest ih =>
      intro scanned h hle
      by_cases hcap : K < scanned + 1
      · have h0 : K - scanned = 0 := by omega
        rw [h0, List.take_zero, selectScan_cons]
        simp only [decide_eq_true_eq]
        rw [if_pos hcap, selectScan.eq_def]
      · have h0 : K - scanned = (K - (scanned + 1)) + 1 := by omega
        rw [h0, List.take_succ_cons, selectScan_cons, selectScan_cons]
        simp only [decide_eq_true_eq]
        rw [if_neg hcap, if_neg (by decide : ¬ (false = true))]
        cases kv with
        | none => exact ih (scanned + 1) h (by omega)
        | some z => exact ih (scanned + 1) (heapPush k score z h) (by omega)

/-- C8: with deterministic_max_scan_keys = K the deterministic key scan
consults only the first K yielded keys: the selection equals the uncapped
selection over the K-prefix of the stream, and every selected key occurs in
that prefix. -/
theorem C8_scan_cap (k K : Nat) (score : α → Nat) (stream : List (Option α)) :
    select_deterministic_keys k score (some K) stream =
      select_deterministic_keys k score none (stream.take K) ∧
    ∀ x, x ∈ select_deterministic_keys k score (some K) stream → some x ∈ stream.take K := by
  have hmain : select_deterministic_keys k score (some K) stream =
      select_deterministic_keys k score none (stream.take K) := by
    unfold select_deterministic_keys
    by_cases hk : k = 0
    · rw [if_pos hk, if_pos hk]
    · rw [if_neg hk, if_neg hk]
      rw [selectScan_cap k K score stream 0 [] (Nat.zero_le K)]
      rw [Nat.sub_zero]
  refine ⟨hmain, ?_⟩
  intro x hx
  rw [hmain] at hx
  unfold select_deterministic_keys at hx
  split at hx
  · cases hx
  · have hmem : x ∈ selectScan k score none (stream.take K) 0 [] :=
      ((List.perm_insertionSort _ _).mem_iff).mp hx
    rcases selectScan_mem k score none (stream.take K) 0 [] x hmem with h1 | h1
    · cases h1
    · exact h1

end SamplingProofs

theorem C8_scan_cap_witness : some 1 ∈ (([some 5, some 1, some 9] : List (Option Nat)).take 2) :=
  (C8_scan_cap 1 2 (fun n => n) [some 5, some 1, some 9]).2 1 (by decide)


section BottomK

variable {α : Type} [DecidableEq α] [LinearOrder α]

theorem score_le_heapWorse_left (score : α → Nat) (a b : α) :
    score a ≤ score (heapWorse score a b) := by
  unfold heapWorse
  split
  · rename_i hcond
    rcases hcond with h | ⟨h, _⟩
    · exact Nat.le_of_lt h
    · exact Nat.le_of_eq h
  · exact Nat.le_refl _

theorem score_le_heapWorse_right (score : α → Nat) (a b : α) :
    score b ≤ score (heapWorse score a b) := by
  unfold heapWorse
  split
  · exact Nat.le_refl _
  · rename_i hcond
    push_neg at hcond
    omega

theorem heapWorse_or (score : α → Nat) (a b : α) :
    heapWorse score a b = a ∨ heapWorse score a b = b := by
  unfold heapWorse
  split
  · exact Or.inr rfl
  · exact Or.inl rfl

theorem foldl_worse_mem (score : α → Nat) :
    ∀ (xs : List α) (x : α), xs.foldl (heapWorse score) x ∈ x :: xs := by
  intro xs
  induction xs with
  | nil => intro x; exact List.mem_cons_self _ _
  | cons y ys ih =>
      intro x
      simp only [List.foldl_cons]
      have hm := ih (heapWorse score x y)
      rcases List.mem_cons.mp hm with h | h
      · rcases heapWorse_or score x y with h2 | h2
        · rw [h, h2]; exact List.mem_cons_self _ _
        · rw [h, h2]
          exact List.mem_cons_of_mem _ (List.mem_cons_self _ _)
      · exact List.mem_cons_of_mem _ (List.mem_cons_of_mem _ h)

theorem foldl_worse_le (score : α → Nat) :
    ∀ (xs : List α) (x : α), ∀ a ∈ x :: xs, score a ≤ score (xs.foldl (heapWorse score) x) := by
  intro xs
  induction xs with
  | nil =>
      intro x a ha
      rcases List.mem_cons.mp ha with h | h
      · subst h; simp
      · cases h
  | cons y ys ih =>
      intro x a ha
      simp only [List.foldl_cons]
      rcases List.mem_cons.mp ha with h | h
      · subst h
        exact le_trans (score_le_heapWorse_left score a y)
          (ih (heapWorse score a y) _ (List.mem_cons_self _ _))
      · rcases List.mem_cons.mp h with h2 | h2
        · subst h2
          exact le_trans (score_le_heapWorse_right score x a)
            (ih (heapWorse score x a) _ (List.mem_cons_self _ _))
        · exact ih (heapWorse score x y) a (List.mem_cons_of_mem _ h2)

theorem heapWorst_spec (score : α → Nat) (h : List α) (hne : h ≠ []) :
    ∃ w, heapWorst score h = some w ∧ w ∈ h ∧ ∀ a ∈ h, score a ≤ score w := by
  match h with
  | x :: xs =>
      exact ⟨xs.foldl (heapWorse score) x, rfl, foldl_worse_mem score xs x,
        fun a ha => foldl_worse_le score xs x a ha⟩

theorem heapWorst_none (score : α → Nat) (h : List α) (hn : heapWorst score h = none) :
    h = [] := by
  match h with
  | [] => rfl
  | x :: xs => exact absurd hn (by rw [heapWorst]; exact fun hc => Option.noConfusion hc)

theorem heapPush_of_room (k : Nat) (score : α → Nat) (x : α) (h : List α)
    (hlen : h.length < k) : heapPush k score x h = x :: h := by
  unfold heapPush
  rw [if_pos hlen]

theorem heapPush_of_none (k : Nat) (score : α → Nat) (x : α) (h : List α)
    (hlen : ¬ h.length < k) (hw : heapWorst score h = none) :
    heapPush k score x h = h := by
  unfold heapPush
  rw [if_neg hlen, hw]

theorem heapPush_of_worst (k : Nat) (score : α → Nat) (x : α) (h : List α) (w : α)
    (hlen : ¬ h.length < k) (hw : heapWorst score h = some w) :
    heapPush k score x h = if score x < score w then x :: h.erase w else h := by
  unfold heapPush
  rw [if_neg hlen, hw]

theorem heapPush_bottom (score : α → Nat) (k : Nat) (x : α) (h : List α) (L : Multiset α)
    (hb : IsBottomK score k (↑h) L) :
    IsBottomK score k (↑(heapPush k score x h)) (x ::ₘ L) := by
  obtain ⟨hle, hcard, hdom⟩ := hb
  have hcl : (↑h : Multiset α).card = h.length := by simp
  have hLcard : (↑h : Multiset α).card ≤ Multiset.card L := Multiset.card_le_card hle
  by_cases hlen : h.length < k
  · rw [heapPush_of_room k score x h hlen]
    have hmin : min k (Multiset.card L) = Multiset.card L := by
      rcases Nat.le_total k (Multiset.card L) with hc | hc
      · rw [Nat.min_eq_left hc] at hcard; omega
      · exact Nat.min_eq_right hc
    have hEq : (↑h : Multiset α) = L := by
      apply Multiset.eq_of_le_of_card_le hle
      rw [hcard, hmin]
    rw [← Multiset.cons_coe, hEq]
    refine ⟨le_refl _, ?_, ?_⟩
    · rw [Multiset.card_cons]
      have : Multiset.card L < k := by
        rw [← hEq, hcl]; exact hlen
      omega
    · intro a _ b hb2
      rw [tsub_self] at hb2
      exact absurd hb2 (Multiset.not_mem_zero b)
  · have hk : Multiset.card (↑h : Multiset α) = k := by
      rw [hcl]
      rcases Nat.le_total k (Multiset.card L) with hc | hc
      · rw [Nat.min_eq_left hc] at hcard; omega
      · rw [Nat.min_eq_right hc] at hcard
        rw [hcl] at hLcard
        omega
    have hkL : k ≤ Multiset.card L := by rw [← hk]; exact hLcard
    cases hhw : heapWorst score h with
    | none =>
        have h0 : h = [] := heapWorst_none score h hhw
        rw [heapPush_of_none k score x h hlen hhw]
        subst h0
        have hk0 : k = 0 := by simpa using hk.symm
        subst hk0
        refine ⟨Multiset.zero_le _, by simp, ?_⟩
        intro a ha
        exact absurd ha (Multiset.not_mem_zero a)
    | some w =>
        have hne : h ≠ [] := by
          intro h0; subst h0
          rw [heapWorst] at hhw
          exact Option.noConfusion hhw
        obtain ⟨w', hw', hwmem, hwmax⟩ := heapWorst_spec score h hne
        rw [hw'] at hhw
        injection hhw with hww
        rw [hww] at hwmem hwmax
        rw [heapPush_of_worst k score x h w hlen (hww ▸ hw')]
        have hwm : w ∈ (↑h : Multiset α) := by simpa using hwmem
        have hwL : w ∈ L := Multiset.mem_of_le hle hwm
        by_cases hs : score x < score w
        · rw [if_pos hs]
          rw [← Multiset.cons_coe, ← Multiset.coe_erase]
          have hcount : ∀ c, Multiset.count c ((x ::ₘ L) - (x ::ₘ (↑h : Multiset α).erase w)) =
              Multiset.count c (w ::ₘ (L - ↑h)) := by
            intro c
            have hcle : Multiset.count c (↑h : Multiset α) ≤ Multiset.count c L :=
              Multiset.le_iff_count.mp hle c
            have hwc : 1 ≤ Multiset.count w (↑h : Multiset α) := Multiset.count_pos.mpr hwm
            by_cases hcw : c = w
            · subst hcw
              simp only [Multiset.count_sub, Multiset.count_cons, Multiset.count_erase_self,
                eq_self_iff_true, if_true]
              generalize (if c = x then (1 : Nat) else 0) = e
              omega
            · simp only [Multiset.count_sub, Multiset.count_cons,
                Multiset.count_erase_of_ne hcw, if_neg hcw]
              generalize (if c = x then (1 : Nat) else 0) = e
              omega
          refine ⟨?_, ?_, ?_⟩
          · exact Multiset.cons_le_cons x ((Multiset.erase_le w _).trans hle)
          · rw [Multiset.card_cons, Multiset.card_erase_of_mem hwm, hk, Multiset.card_cons,
              Nat.pred_eq_sub_one]
            have hk1 : 1 ≤ k := by
              rw [← hk]
              exact Multiset.card_pos_iff_exists_mem.mpr ⟨w, hwm⟩
            omega
          · intro a ha b hbmem
            rw [Multiset.ext.mpr hcount] at hbmem
            rcases Multiset.mem_cons.mp ha with hax | hae
            · subst hax
              rcases Multiset.mem_cons.mp hbmem with hbw | hbr
              · subst hbw; exact Nat.le_of_lt hs
              · have hwb := hdom w hwm b hbr
                exact le_trans (Nat.le_of_lt hs) hwb
            · have ham : a ∈ (↑h : Multiset α) := Multiset.mem_of_mem_erase hae
              rcases Multiset.mem_cons.mp hbmem with hbw | hbr
              · subst hbw
                exact hwmax a (by simpa using ham)
              · exact hdom a ham b hbr
        · rw [if_neg hs]
          have hsw : score w ≤ score x := Nat.le_of_not_lt hs
          refine ⟨hle.trans (Multiset.le_cons_self L x), ?_, ?_⟩
          · rw [hk, Multiset.card_cons]
            omega
          · intro a ha b hbmem
            have hcount : ∀ c, Multiset.count c ((x ::ₘ L) - (↑h : Multiset α)) =
                Multiset.count c (x ::ₘ (L - ↑h)) := by
              intro c
              have hcle : Multiset.count c (↑h : Multiset α) ≤ Multiset.count c L :=
                Multiset.le_iff_count.mp hle c
              simp only [Multiset.count_sub, Multiset.count_cons]
              generalize (if c = x then (1 : Nat) else 0) = e
              omega
            rw [Multiset.ext.mpr hcount] at hbmem
            rcases Multiset.mem_cons.mp hbmem with hbx | hbr
            · subst hbx
              exact le_trans (hwmax a (by simpa using ha)) hsw
            · exact hdom a ha b hbr

theorem selectScan_bottom (score : α → Nat) (k : Nat) :
    ∀ (l : List (Option α)) (scanned : Nat) (h : List α) (L : Multiset α),
      IsBottomK score k (↑h) L →
      IsBottomK score k (↑(selectScan k score none l scanned h)) (L + ↑(l.reduceOption)) := by
  intro l
  induction l with
  | nil =>
      intro scanned h L hb
      simpa [selectScan] using hb
  | cons kv rest ih =>
      intro scanned h L hb
      rw [selectScan_cons, if_neg (by decide : ¬ (false = true))]
      cases kv with
      | none =>
          rw [List.reduceOption_cons_of_none]
          exact ih (scanned + 1) h L hb
      | some x =>
          rw [List.reduceOption_cons_of_some]
          have h2 := ih (scanned + 1) (heapPush k score x h) (x ::ₘ L)
            (heapPush_bottom score k x h L hb)
          have halg : (x ::ₘ L) + (↑(rest.reduceOption) : Multiset α) =
              L + ↑(x :: rest.reduceOption) := by
            rw [← Multiset.cons_coe, Multiset.cons_add, Multiset.add_cons]
          rw [halg] at h2
          exact h2

theorem bottomK_unique (score : α → Nat) (hinj : Function.Injective score) (k : Nat)
    (m₁ m₂ l : Multiset α) (h1 : IsBottomK score k m₁ l) (h2 : IsBottomK score k m₂ l) :
    m₁ = m₂ := by
  by_contra hne
  obtain ⟨hle1, hc1, hdom1⟩ := h1
  obtain ⟨hle2, hc2, hdom2⟩ := h2
  have hcc : Multiset.card m₁ = Multiset.card m₂ := by rw [hc1, hc2]
  have hex1 : ∃ a, Multiset.count a m₂ < Multiset.count a m₁ := by
    by_contra hall
    push_neg at hall
    exact hne (Multiset.eq_of_le_of_card_le (Multiset.le_iff_count.mpr hall) (le_of_eq hcc.symm))
  have hex2 : ∃ b, Multiset.count b m₁ < Multiset.count b m₂ := by
    by_contra hall
    push_neg at hall
    exact hne (Multiset.eq_of_le_of_card_le (Multiset.le_iff_count.mpr hall) (le_of_eq hcc)).symm
  obtain ⟨a, ha⟩ := hex1
  obtain ⟨b, hbb⟩ := hex2
  have ha1 : a ∈ m₁ := Multiset.count_pos.mp (by omega)
  have hb2 : b ∈ m₂ := Multiset.count_pos.mp (by omega)
  have hal : Multiset.count a m₁ ≤ Multiset.count a l := Multiset.le_iff_count.mp hle1 a
  have hbl : Multiset.count b m₂ ≤ Multiset.count b l := Multiset.le_iff_count.mp hle2 b
  have ha2 : a ∈ l - m₂ := by
    rw [← Multiset.count_pos, Multiset.count_sub]
    omega
  have hb1 : b ∈ l - m₁ := by
    rw [← Multiset.count_pos, Multiset.count_sub]
    omega
  have e1 := hdom1 a ha1 b hb1
  have e2 := hdom2 b hb2 a ha2
  have heq : a = b := hinj (Nat.le_antisymm e1 e2)
  subst heq
  omega

/-- C2: with the per-seed SHA-256 scores abstracted as an arbitrary
collision-free scoring function, select_deterministic_keys returns the same
key multiset for any two streams of business-key values that are permutations
of each other: the kept heap is always a bottom-sample_size-by-score
selection of the scanned keys, and that selection is unique as a multiset. -/
theorem C2_deterministic_selection_perm_invariant (score : α → Nat)
    (hinj : Function.Injective score) (k : Nat) (l₁ l₂ : List (Option α))
    (hp : l₁.Perm l₂) :
    (select_deterministic_keys k score none l₁).Perm
      (select_deterministic_keys k score none l₂) := by
  unfold select_deterministic_keys
  by_cases hk : k = 0
  · rw [if_pos hk, if_pos hk]
  · rw [if_neg hk, if_neg hk]
    have hempty : IsBottomK score k (↑([] : List α)) 0 := by
      refine ⟨le_refl _, by simp, ?_⟩
      intro a ha
      exact absurd ha (Multiset.not_mem_zero a)
    have h1 := selectScan_bottom score k l₁ 0 [] 0 hempty
    have h2 := selectScan_bottom score k l₂ 0 [] 0 hempty
    rw [zero_add] at h1 h2
    have hpr : (l₁.reduceOption).Perm (l₂.reduceOption) := by
      simpa [List.reduceOption] using hp.filterMap id
    have hmeq : (↑(l₁.reduceOption) : Multiset α) = ↑(l₂.reduceOption) :=
      Multiset.coe_eq_coe.mpr hpr
    rw [hmeq] at h1
    have heq := bottomK_unique score hinj k _ _ _ h1 h2
    have hperm : (selectScan k score none l₁ 0 []).Perm (selectScan k score none l₂ 0 []) :=
      Multiset.coe_eq_coe.mp heq
    exact ((List.perm_insertionSort _ _).trans hperm).trans
      (List.perm_insertionSort _ _).symm

end BottomK

theorem C2_perm_invariance_witness :
    (select_deterministic_keys 2 (fun n : Nat => n) none [some 3, none, some 1, some 2]).Perm
      (select_deterministic_keys 2 (fun n : Nat => n) none [some 2, some 1, some 3, none]) :=
  C2_deterministic_selection_perm_invariant (fun n : Nat => n) (fun a b h => h) 2
    [some 3, none, some 1, some 2] [some 2, some 1, some 3, none] (by decide)


/-! ### Dotted-path segmentation lemmas for the exclusion claim -/

theorem splitDots_nil : splitDots [] = [[]] := rfl

theorem splitDots_cons_dot (cs : List Char) : splitDots ('.' :: cs) = [] :: splitDots cs := by
  simp [splitDots]

theorem splitDots_cons_ne {c : Char} (hc : c ≠ '.') {cs seg : List Char}
    {rest : List (List Char)} (h : splitDots cs = seg :: rest) :
    splitDots (c :: cs) = (c :: seg) :: rest := by
  rw [splitDots, if_neg hc, h]

theorem splitDots_ne_nil (cs : List Char) : splitDots cs ≠ [] := by
  induction cs with
  | nil => simp [splitDots]
  | cons c cs ih =>
      rw [splitDots]
      by_cases hc : c = '.'
      · simp [hc]
      · rw [if_neg hc]
        cases h : splitDots cs with
        | nil => exact absurd h ih
        | cons seg rest => simp

theorem splitDots_dest (cs : List Char) :
    ∃ seg rest, splitDots cs = seg :: rest := by
  cases h : splitDots cs with
  | nil => exact absurd h (splitDots_ne_nil cs)
  | cons seg rest => exact ⟨seg, rest, rfl⟩

theorem splitDots_no_dot (cs : List Char) (h : '.' ∉ cs) : splitDots cs = [cs] := by
  induction cs with
  | nil => rfl
  | cons c cs ih =>
      have hc : c ≠ '.' := fun hc => h (hc ▸ List.mem_cons_self c cs)
      have h2 := ih (fun hm => h (List.mem_cons_of_mem c hm))
      rw [splitDots_cons_ne hc h2]

theorem splitDots_append_dot (xs ys : List Char) :
    splitDots (xs ++ '.' :: ys) = splitDots xs ++ splitDots ys := by
  induction xs with
  | nil =>
      rw [List.nil_append, splitDots_cons_dot, splitDots_nil]
      rfl
  | cons c cs ih =>
      by_cases hc : c = '.'
      · subst hc
        rw [List.cons_append, splitDots_cons_dot, splitDots_cons_dot, ih]
        rfl
      · obtain ⟨seg, rest, h⟩ := splitDots_dest cs
        rw [List.cons_append, splitDots_cons_ne hc (by rw [ih, h]; rfl),
          splitDots_cons_ne hc h]
        simp

theorem splitDots_append_no_dot (xs ys : List Char) (hy : '.' ∉ ys) :
    ∃ pre last, splitDots xs = pre ++ [last] ∧ splitDots (xs ++ ys) = pre ++ [last ++ ys] := by
  induction xs with
  | nil =>
      refine ⟨[], [], rfl, ?_⟩
      rw [List.nil_append, splitDots_no_dot ys hy]
      rfl
  | cons c cs ih =>
      obtain ⟨pre, last, h1, h2⟩ := ih
      by_cases hc : c = '.'
      · subst hc
        refine ⟨[] :: pre, last, ?_, ?_⟩
        · rw [splitDots_cons_dot, h1]; rfl
        · rw [List.cons_append, splitDots_cons_dot, h2]; rfl
      · cases pre with
        | nil =>
            refine ⟨[], c :: last, ?_, ?_⟩
            · rw [splitDots_cons_ne hc (by rw [h1]; rfl)]
              rfl
            · rw [List.cons_append, splitDots_cons_ne hc (by rw [h2]; rfl)]
              simp
        | cons p ps =>
            refine ⟨(c :: p) :: ps, last, ?_, ?_⟩
            · rw [splitDots_cons_ne hc (by rw [h1]; rfl)]
              rfl
            · rw [List.cons_append, splitDots_cons_ne hc (by rw [h2]; rfl)]
              rfl

theorem joinDots_splitDots (cs : List Char) : joinDots (splitDots cs) = cs := by
  have main : ∀ (cs : List Char) seg rest, splitDots cs = seg :: rest →
      seg ++ joinDotsTail rest = cs := by
    intro cs
    induction cs with
    | nil =>
        intro seg rest h
        rw [splitDots_nil] at h
        injection h with h1 h2
        subst h1; subst h2
        rfl
    | cons c cs ih =>
        intro seg rest h
        by_cases hc : c = '.'
        · subst hc
          rw [splitDots_cons_dot] at h
          injection h with h1 h2
          subst h1; subst h2
          obtain ⟨s2, r2, h3⟩ := splitDots_dest cs
          have := ih s2 r2 h3
          rw [h3, joinDotsTail, List.nil_append, this]
        · obtain ⟨s2, r2, h3⟩ := splitDots_dest cs
          rw [splitDots_cons_ne hc h3] at h
          injection h with h1 h2
          subst h1; subst h2
          have := ih s2 r2 h3
          rw [List.cons_append, this]
  obtain ⟨seg, rest, h⟩ := splitDots_dest cs
  rw [h, joinDots]
  exact main cs seg rest h

theorem chars_splitDots {c : Char} {cs : List Char} (hc : c ∈ cs) :
    c = '.' ∨ ∃ s ∈ splitDots cs, c ∈ s := by
  induction cs with
  | nil => cases hc
  | cons a as ih =>
      by_cases ha : a = '.'
      · subst ha
        rcases List.mem_cons.mp hc with rfl | hc2
        · exact Or.inl rfl
        · rcases ih hc2 with h | ⟨s, hs, hcs⟩
          · exact Or.inl h
          · exact Or.inr ⟨s, by rw [splitDots_cons_dot]; exact List.mem_cons_of_mem _ hs, hcs⟩
      · obtain ⟨seg, rest, h⟩ := splitDots_dest as
        rcases List.mem_cons.mp hc with rfl | hc2
        · exact Or.inr ⟨c :: seg, by rw [splitDots_cons_ne ha h]; exact List.mem_cons_self _ _,
            List.mem_cons_self c seg⟩
        · rcases ih hc2 with h2 | ⟨s, hs, hcs⟩
          · exact Or.inl h2
          · rw [h] at hs
            rcases List.mem_cons.mp hs with rfl | hs2
            · exact Or.inr ⟨a :: s, by rw [splitDots_cons_ne ha h]; exact List.mem_cons_self _ _,
                List.mem_cons_of_mem a hcs⟩
            · exact Or.inr ⟨s, by rw [splitDots_cons_ne ha h]; exact List.mem_cons_of_mem _ hs2,
                hcs⟩

theorem mem_of_mem_splitDots {c : Char} {s cs : List Char}
    (hs : s ∈ splitDots cs) (hc : c ∈ s) : c = '.' ∨ c ∈ cs := by
  induction cs generalizing s with
  | nil =>
      rw [splitDots_nil] at hs
      rcases List.mem_singleton.mp hs with rfl
      cases hc
  | cons a as ih =>
      by_cases ha : a = '.'
      · subst ha
        rw [splitDots_cons_dot] at hs
        rcases List.mem_cons.mp hs with rfl | hs2
        · cases hc
        · rcases ih hs2 hc with h | h
          · exact Or.inl h
          · exact Or.inr (List.mem_cons_of_mem _ h)
      · obtain ⟨seg, rest, h⟩ := splitDots_dest as
        rw [splitDots_cons_ne ha h] at hs
        rcases List.mem_cons.mp hs with rfl | hs2
        · rcases List.mem_cons.mp hc with rfl | hc2
          · exact Or.inr (List.mem_cons_self c as)
          · rcases ih (h ▸ List.mem_cons_self seg rest) hc2 with h2 | h2
            · exact Or.inl h2
            · exact Or.inr (List.mem_cons_of_mem a h2)
        · rcases ih (h ▸ List.mem_cons_of_mem seg hs2) hc with h2 | h2
          · exact Or.inl h2
          · exact Or.inr (List.mem_cons_of_mem a h2)

theorem segOkChars_chars {s : List Char} (hs : segOkChars s = true) :
    ∀ c ∈ s, c.isAlphanum = true ∨ c = '_' ∨ c = '-' := by
  match s with
  | [] => cases hs
  | a :: as =>
      rw [segOkChars, Bool.and_eq_true] at hs
      intro c hc
      have h1 := hs.1
      have h2 := hs.2
      simp only [Bool.or_eq_true, decide_eq_true_eq] at h1
      rcases List.mem_cons.mp hc with rfl | hc2
      · rcases h1 with h | h
        · exact Or.inl h
        · exact Or.inr (Or.inl h)
      · have h3 := List.all_eq_true.mp h2 c hc2
        simp only [Bool.or_eq_true, decide_eq_true_eq] at h3
        rcases h3 with (h | h) | h
        · exact Or.inl h
        · exact Or.inr (Or.inl h)
        · exact Or.inr (Or.inr h)

theorem segOkChars_ne_nil {s : List Char} (hs : segOkChars s = true) : s ≠ [] := by
  match s with
  | [] => cases hs
  | a :: as => simp

theorem isFieldPath_segs {f : String} (hf : isFieldPath f = true) :
    ∀ s ∈ splitDots f.data, segOkChars s = true := by
  rw [isFieldPath, Bool.and_eq_true] at hf
  exact fun s hs => List.all_eq_true.mp hf.2 s hs

theorem isFieldPath_char {f : String} (hf : isFieldPath f = true) :
    ∀ c ∈ f.data, c = '.' ∨ c.isAlphanum = true ∨ c = '_' ∨ c = '-' := by
  intro c hc
  rcases chars_splitDots hc with h | ⟨s, hs, hcs⟩
  · exact Or.inl h
  · exact Or.inr (segOkChars_chars (isFieldPath_segs hf s hs) c hcs)

theorem isFieldPath_no_bracket {f : String} (hf : isFieldPath f = true) : '[' ∉ f.data := by
  intro hmem
  rcases isFieldPath_char hf '[' hmem with h | h | h | h <;> revert h <;> decide

theorem isFieldPath_no_dollar {f : String} (hf : isFieldPath f = true) : '$' ∉ f.data := by
  intro hmem
  rcases isFieldPath_char hf '$' hmem with h | h | h | h <;> revert h <;> decide

theorem isFieldPath_ne_empty {f : String} (hf : isFieldPath f = true) : f ≠ "" := by
  rw [isFieldPath, Bool.and_eq_true] at hf
  simpa using hf.1


theorem digitChar_ne_dot (m : Nat) : Nat.digitChar m ≠ '.' := by
  rcases Nat.lt_or_ge m 16 with h | h
  · interval_cases m <;> decide
  · intro hc
    unfold Nat.digitChar at hc
    rw [if_neg (by omega : ¬ m = 0), if_neg (by omega : ¬ m = 1), if_neg (by omega : ¬ m = 2),
      if_neg (by omega : ¬ m = 3), if_neg (by omega : ¬ m = 4), if_neg (by omega : ¬ m = 5),
      if_neg (by omega : ¬ m = 6), if_neg (by omega : ¬ m = 7), if_neg (by omega : ¬ m = 8),
      if_neg (by omega : ¬ m = 9), if_neg (by omega : ¬ m = 10), if_neg (by omega : ¬ m = 11),
      if_neg (by omega : ¬ m = 12), if_neg (by omega : ¬ m = 13), if_neg (by omega : ¬ m = 14),
      if_neg (by omega : ¬ m = 15)] at hc
    exact absurd hc (by decide)

theorem toDigitsCore_chars (b : Nat) :
    ∀ (f n : Nat) (acc : List Char), ∀ c ∈ Nat.toDigitsCore b f n acc,
      c ∈ acc ∨ ∃ m, c = Nat.digitChar m := by
  intro f
  induction f with
  | zero => intro n acc c hc; exact Or.inl hc
  | succ f ih =>
      intro n acc c hc
      have hstep : Nat.toDigitsCore b (f + 1) n acc =
          if n / b = 0 then Nat.digitChar (n % b) :: acc
          else Nat.toDigitsCore b f (n / b) (Nat.digitChar (n % b) :: acc) := rfl
      rw [hstep] at hc
      split at hc
      · rcases List.mem_cons.mp hc with rfl | hc2
        · exact Or.inr ⟨n % b, rfl⟩
        · exact Or.inl hc2
      · rcases ih (n / b) (Nat.digitChar (n % b) :: acc) c hc with hin | hd
        · rcases List.mem_cons.mp hin with rfl | hc2
          · exact Or.inr ⟨n % b, rfl⟩
          · exact Or.inl hc2
        · exact Or.inr hd

theorem natRepr_no_dot (n : Nat) : '.' ∉ (toString n).data := by
  intro hmem
  have h : (toString n).data = Nat.toDigitsCore 10 (n + 1) n [] := rfl
  rw [h] at hmem
  rcases toDigitsCore_chars 10 (n + 1) n [] '.' hmem with h2 | ⟨m, hm⟩
  · cases h2
  · exact digitChar_ne_dot m hm.symm

theorem idxExtend_data (path : String) (i : Nat) :
    (idxExtend path i).data = path.data ++ ('[' :: ((toString i).data ++ [']'])) := by
  unfold idxExtend
  simp [String.data_append]

theorem idx_suffix_no_dot (i : Nat) : '.' ∉ ('[' :: ((toString i).data ++ [']'])) := by
  intro hmem
  rcases List.mem_cons.mp hmem with h | h
  · cases h
  · rcases List.mem_append.mp h with h2 | h2
    · exact natRepr_no_dot i h2
    · rcases List.mem_singleton.mp h2 with h3
      cases h3

theorem dotExtend_data_of_ne (path k : String) (hp : path ≠ "") :
    (dotExtend path k).data = path.data ++ '.' :: k.data := by
  unfold dotExtend
  rw [if_neg hp]
  simp [String.data_append]

theorem dotExtend_of_empty (k : String) : dotExtend "" k = k := rfl

theorem snoc_inj {β : Type} {l₁ l₂ : List β} {a b : β} (h : l₁ ++ [a] = l₂ ++ [b]) :
    l₁ = l₂ ∧ a = b := by
  have hrev := congrArg List.reverse h
  simp only [List.reverse_append, List.reverse_singleton, List.singleton_append] at hrev
  injection hrev with h1 h2
  exact ⟨by simpa using congrArg List.reverse h2, h1⟩

theorem forall₂_mem_right {β γ : Type} {R : β → γ → Prop} :
    ∀ {S : List β} {L : List γ}, List.Forall₂ R S L → ∀ b ∈ L, ∃ a ∈ S, R a b := by
  intro S L hf
  induction hf with
  | nil => intro b hb; cases hb
  | cons hR hF ih =>
      intro b hb
      rcases List.mem_cons.mp hb with rfl | hb2
      · exact ⟨_, List.mem_cons_self _ _, hR⟩
      · obtain ⟨a, ha, hr⟩ := ih b hb2
        exact ⟨a, List.mem_cons_of_mem _ ha, hr⟩

theorem forall₂_modify_last {R : List Char → List Char → Prop} {u : List Char}
    (hmod : ∀ a b, R a b → R a (b ++ u)) :
    ∀ (l : List (List Char)) (a : List Char) (S : List (List Char)),
      List.Forall₂ R S (l ++ [a]) → List.Forall₂ R S (l ++ [a ++ u]) := by
  intro l
  induction l with
  | nil =>
      intro a S hf
      rcases List.forall₂_cons_right_iff.mp hf with ⟨s, S', hR, hF, rfl⟩
      rcases List.forall₂_nil_right_iff.mp hF with rfl
      exact List.Forall₂.cons (hmod s a hR) List.Forall₂.nil
  | cons b l ih =>
      intro a S hf
      rcases List.forall₂_cons_right_iff.mp hf with ⟨s, S', hR, hF, rfl⟩
      exact List.Forall₂.cons hR (ih a S' hF)

theorem segExt_refl (s : List Char) : SegExt s s := ⟨[], by simp, Or.inl rfl⟩

theorem segExt_append {pseg seg u : List Char} (hu : u.head? = some '[')
    (h : SegExt pseg seg) : SegExt pseg (seg ++ u) := by
  obtain ⟨t, rfl, hc⟩ := h
  refine ⟨t ++ u, by rw [List.append_assoc], Or.inr ?_⟩
  rcases hc with rfl | hc2
  · simpa using hu
  · cases t with
    | nil => simpa using hu
    | cons c t' => simpa using hc2

mutual

theorem pruneV_cleaned (xa xp : List String) :
    ∀ (v : Value) (pp : String), keysNoDotV v = true →
      Cleaned xa xp pp (pruneV xa xp v pp)
  | .null, pp, _ => Cleaned.null pp
  | .bool b, pp, _ => Cleaned.bool pp b
  | .int n, pp, _ => Cleaned.int pp n
  | .str s, pp, _ => Cleaned.str pp s
  | .float x, pp, _ => Cleaned.float pp x
  | .bytes bs, pp, _ => Cleaned.bytes pp bs
  | .ts t, pp, _ => Cleaned.ts pp t
  | .dec d, pp, _ => Cleaned.dec pp d
  | .arr es, pp, h => by
      rw [pruneV]
      exact Cleaned.arr pp _ (pruneArr_cleaned xa xp es pp (by simpa [keysNoDotV] using h))
  | .doc fs, pp, h => by
      rw [pruneV]
      have h4 := pruneFields_cleaned xa xp fs pp (by simpa [keysNoDotV] using h)
      exact Cleaned.doc pp _ (fun kv hkv => (h4 kv hkv).1) (fun kv hkv => (h4 kv hkv).2.1)
        (fun kv hkv => (h4 kv hkv).2.2.1) (fun kv hkv => (h4 kv hkv).2.2.2)

theorem pruneArr_cleaned (xa xp : List String) :
    ∀ (es : List Value) (pp : String), keysNoDotA es = true →
      ∀ e ∈ pruneArr xa xp es pp, Cleaned xa xp pp e
  | [], _, _ => by intro e he; cases he
  | v :: vs, pp, h => by
      rw [keysNoDotA, Bool.and_eq_true] at h
      intro e he
      rw [pruneArr] at he
      rcases List.mem_cons.mp he with rfl | he2
      · exact pruneV_cleaned xa xp v pp h.1
      · exact pruneArr_cleaned xa xp vs pp h.2 e he2

theorem pruneFields_cleaned (xa xp : List String) :
    ∀ (fs : List (String × Value)) (pp : String), keysNoDotF fs = true →
      ∀ kv ∈ pruneFields xa xp fs pp,
        '.' ∉ (kv.1 : String).data ∧ kv.1 ∉ xa ∧ dotExtend pp kv.1 ∉ xp ∧
          Cleaned xa xp (dotExtend pp kv.1) kv.2
  | [], _, _ => by intro kv hkv; cases hkv
  | (k, v) :: fs, pp, h => by
      rw [keysNoDotF, Bool.and_eq_true, Bool.and_eq_true] at h
      intro kv hkv
      rw [pruneFields] at hkv
      by_cases hex : k ∈ xa ∨ dotExtend pp k ∈ xp
      · rw [if_pos hex] at hkv
        exact pruneFields_cleaned xa xp fs pp h.2.2 kv hkv
      · rw [if_neg hex] at hkv
        rcases List.mem_cons.mp hkv with rfl | hkv2
        · push_neg at hex
          refine ⟨by simpa using h.1, hex.1, hex.2, ?_⟩
          exact pruneV_cleaned xa xp v (dotExtend pp k) h.2.1
        · exact pruneFields_cleaned xa xp fs pp h.2.2 kv hkv2

end


theorem mem_of_lookup {k : String} {v : Value} :
    ∀ {l : List (String × Value)}, List.lookup k l = some v → (k, v) ∈ l := by
  intro l
  induction l with
  | nil => intro h; cases h
  | cons kv tl ih =>
      obtain ⟨k', v'⟩ := kv
      intro h
      rw [List.lookup] at h
      by_cases hk : k = k'
      · rw [show (k == k') = true from beq_iff_eq.mpr hk] at h
        have h2 : some v' = some v := h
        injection h2 with h3
        subst hk; subst h3
        exact List.mem_cons_self _ _
      · rw [show (k == k') = false from beq_eq_false_iff_ne.mpr hk] at h
        have h2 : List.lookup k tl = some v := h
        exact List.mem_cons_of_mem _ (ih h2)

theorem forall₂_segExt_eq :
    ∀ {S L : List (List Char)}, List.Forall₂ SegExt S L → (∀ seg ∈ L, '[' ∉ seg) → S = L := by
  intro S L h
  induction h with
  | nil => intro _; rfl
  | cons hR hF ih =>
      intro hnb
      obtain ⟨t, rfl, hc⟩ := hR
      have hb := hnb _ (List.mem_cons_self _ _)
      have ht : t = [] := by
        rcases hc with rfl | hc2
        · rfl
        · cases t with
          | nil => rfl
          | cons c t' =>
              rw [List.head?] at hc2
              injection hc2 with h3
              subst h3
              exact absurd (List.mem_append.mpr (Or.inr (List.mem_cons_self _ _))) hb
      subst ht
      rw [List.append_nil, ih (fun seg hs => hnb seg (List.mem_cons_of_mem _ hs))]

theorem head_mem_of_head? {c : Char} {l : List Char} (h : l.head? = some c) : c ∈ l := by
  cases l with
  | nil => cases h
  | cons a l' =>
      rw [List.head?] at h
      injection h with h2
      subst h2
      exact List.mem_cons_self _ _

theorem pathInv_ne_empty {pp path : String} (h : PathInv pp path) (hpp : pp ≠ "") :
    path ≠ "" := by
  intro hpath
  subst hpath
  obtain ⟨bs, rest, hsplit, hbs, hf⟩ := h
  rw [show ("" : String).data = [] from rfl, splitDots_nil] at hsplit
  have hlen : rest.length = (splitDots pp.data).length := (List.Forall₂.length_eq hf).symm
  have hrest : rest ≠ [] := by
    intro hr
    rw [hr] at hlen
    exact splitDots_ne_nil pp.data (List.length_eq_zero.mp hlen.symm)
  have hbs0 : bs = [] ∧ rest = [[]] := by
    cases bs with
    | nil =>
        constructor
        · rfl
        · simpa using hsplit.symm
    | cons b bs' =>
        exfalso
        rw [List.cons_append] at hsplit
        injection hsplit with h1 h2
        rcases List.append_eq_nil.mp h2.symm with ⟨_, hr⟩
        exact hrest hr
  obtain ⟨rfl, hrr⟩ := hbs0
  rw [hrr] at hf
  rcases List.forall₂_cons_right_iff.mp hf with ⟨pseg, S', hR, hF2, hS⟩
  rcases List.forall₂_nil_right_iff.mp hF2 with rfl
  obtain ⟨t, hteq, _⟩ := hR
  rcases List.append_eq_nil.mp hteq.symm with ⟨rfl, rfl⟩
  have : pp.data = [] := by
    have := congrArg joinDots hS
    rw [joinDots_splitDots] at this
    simpa [joinDots, joinDotsTail] using this
  exact hpp (String.ext this)

theorem inv_pathOK (xa xp : List String)
    (hxa : ∀ f ∈ xa, isFieldPath f = true ∧ '.' ∉ f.data)
    (hxp : ∀ p ∈ xp, isFieldPath p = true ∧ '.' ∈ p.data)
    {pp path : String} (hinv : Inv xa xp pp path) : PathOK xa xp path := by
  obtain ⟨⟨bs, rest, hsplit, hbs, hf⟩, hppa, hppp⟩ := hinv
  constructor
  · intro f hfmem hfd
    rw [hsplit] at hfd
    rcases List.mem_append.mp hfd with hin | hin
    · rcases hbs _ hin with hnil | hhd
      · have hfe : f = "" := String.ext hnil
        exact isFieldPath_ne_empty (hxa f hfmem).1 hfe
      · exact isFieldPath_no_bracket (hxa f hfmem).1 (head_mem_of_head? hhd)
    · obtain ⟨pseg, hpsmem, t, hteq, hc⟩ := forall₂_mem_right hf _ hin
      rcases hc with rfl | hhd
      · rw [List.append_nil] at hteq
        have : String.mk pseg = f := by
          rw [← hteq]
        exact hppa pseg hpsmem (this ▸ hfmem)
      · have : '[' ∈ f.data := by
          rw [hteq]
          exact List.mem_append.mpr (Or.inr (head_mem_of_head? hhd))
        exact isFieldPath_no_bracket (hxa f hfmem).1 this
  · intro hpmem
    have hvalid := (hxp path hpmem).1
    have hnbr : '[' ∉ path.data := isFieldPath_no_bracket hvalid
    have hsegs := isFieldPath_segs hvalid
    have hbsnil : bs = [] := by
      cases bs with
      | nil => rfl
      | cons b bs' =>
          exfalso
          have hbmem : b ∈ splitDots path.data := by
            rw [hsplit]; exact List.mem_append.mpr (Or.inl (List.mem_cons_self _ _))
          rcases hbs b (List.mem_cons_self _ _) with rfl | hhd
          · exact segOkChars_ne_nil (hsegs _ hbmem) rfl
          · have hbc : '[' ∈ b := head_mem_of_head? hhd
            rcases mem_of_mem_splitDots hbmem hbc with hdot | hpc
            · cases hdot
            · exact hnbr hpc
    subst hbsnil
    rw [List.nil_append] at hsplit
    subst hsplit
    have heqS : splitDots pp.data = splitDots path.data := by
      refine forall₂_segExt_eq hf ?_
      intro seg hseg hbr
      rcases mem_of_mem_splitDots hseg hbr with hdot | hpc
      · cases hdot
      · exact hnbr hpc
    have : pp.data = path.data := by
      have := congrArg joinDots heqS
      rwa [joinDots_splitDots, joinDots_splitDots] at this
    exact hppp ((String.ext this) ▸ hpmem)

theorem pathOK_dollar (xa xp : List String)
    (hxa : ∀ f ∈ xa, isFieldPath f = true ∧ '.' ∉ f.data)
    (hxp : ∀ p ∈ xp, isFieldPath p = true ∧ '.' ∈ p.data) : PathOK xa xp "$" := by
  constructor
  · intro f hfmem hfd
    have : splitDots ("$" : String).data = [['$']] := rfl
    rw [this] at hfd
    rcases List.mem_singleton.mp hfd with hfe
    have : '$' ∈ f.data := by rw [hfe]; exact List.mem_cons_self _ _
    exact isFieldPath_no_dollar (hxa f hfmem).1 this
  · intro hmem
    have := (hxp _ hmem).2
    simp only [show ("$" : String).data = ['$'] from rfl] at this
    rcases List.mem_singleton.mp this with h
    cases h

theorem pathOK_pathOr (xa xp : List String)
    (hxa : ∀ f ∈ xa, isFieldPath f = true ∧ '.' ∉ f.data)
    (hxp : ∀ p ∈ xp, isFieldPath p = true ∧ '.' ∈ p.data)
    {pp path : String} (hinv : Inv xa xp pp path) : PathOK xa xp (pathOr path) := by
  unfold pathOr
  by_cases hpath : path = ""
  · rw [if_pos hpath]
    exact pathOK_dollar xa xp hxa hxp
  · rw [if_neg hpath]
    exact inv_pathOK xa xp hxa hxp hinv


theorem splitDots_dotExtend (x k : String) (hkd : '.' ∉ k.data) :
    splitDots (dotExtend x k).data =
      (if x = "" then [] else splitDots x.data) ++ [k.data] := by
  by_cases hx : x = ""
  · subst hx
    rw [dotExtend_of_empty, if_pos rfl, List.nil_append, splitDots_no_dot _ hkd]
  · rw [if_neg hx, dotExtend_data_of_ne x k hx, splitDots_append_dot,
      splitDots_no_dot _ hkd]

theorem inv_key {xa xp : List String} {pp path : String} (hinv : Inv xa xp pp path)
    {k : String} (hkd : '.' ∉ k.data) (hka : k ∉ xa) (hkp : dotExtend pp k ∉ xp) :
    Inv xa xp (dotExtend pp k) (dotExtend path k) := by
  obtain ⟨⟨bs, rest, hsplit, hbs, hf⟩, hppa, hppp⟩ := hinv
  have hnewpp : splitDots (dotExtend pp k).data =
      (if pp = "" then [] else splitDots pp.data) ++ [k.data] := splitDots_dotExtend pp k hkd
  refine ⟨?_, ?_, hkp⟩
  · by_cases hpp : pp = ""
    · by_cases hpath : path = ""
      · refine ⟨[], [k.data], ?_, ?_, ?_⟩
        · rw [splitDots_dotExtend path k hkd, if_pos hpath, List.nil_append]
        · intro s hs; cases hs
        · rw [hnewpp, if_pos hpp, List.nil_append]
          exact List.Forall₂.cons (segExt_refl k.data) List.Forall₂.nil
      · refine ⟨splitDots path.data, [k.data], ?_, ?_, ?_⟩
        · rw [splitDots_dotExtend path k hkd, if_neg hpath]
        · intro s hs
          rw [hsplit] at hs
          rcases List.mem_append.mp hs with hin | hin
          · exact hbs s hin
          · subst hpp
            rw [show ("" : String).data = [] from rfl, splitDots_nil] at hf
            rcases List.forall₂_cons_left_iff.mp hf with ⟨r, rest', hR, hF2, rfl⟩
            rcases List.forall₂_nil_left_iff.mp hF2 with rfl
            rcases List.mem_singleton.mp hin with rfl
            obtain ⟨t, hteq, hc⟩ := hR
            rw [List.nil_append] at hteq
            subst hteq
            exact hc
        · rw [hnewpp, if_pos hpp, List.nil_append]
          exact List.Forall₂.cons (segExt_refl k.data) List.Forall₂.nil
    · have hpath : path ≠ "" := pathInv_ne_empty ⟨bs, rest, hsplit, hbs, hf⟩ hpp
      refine ⟨bs, rest ++ [k.data], ?_, hbs, ?_⟩
      · rw [splitDots_dotExtend path k hkd, if_neg hpath, hsplit, List.append_assoc]
      · rw [hnewpp, if_neg hpp]
        exact List.rel_append hf (List.Forall₂.cons (segExt_refl k.data) List.Forall₂.nil)
  · intro s hs
    rw [hnewpp] at hs
    rcases List.mem_append.mp hs with hin | hin
    · by_cases hpp : pp = ""
      · rw [if_pos hpp] at hin; cases hin
      · rw [if_neg hpp] at hin
        exact hppa s hin
    · rcases List.mem_singleton.mp hin with rfl
      intro hmem
      exact hka hmem

theorem inv_idx {xa xp : List String} {pp path : String} (hinv : Inv xa xp pp path) (i : Nat) :
    Inv xa xp pp (idxExtend path i) := by
  obtain ⟨⟨bs, rest, hsplit, hbs, hf⟩, hppa, hppp⟩ := hinv
  refine ⟨?_, hppa, hppp⟩
  obtain ⟨pre, last, h1, h2⟩ :=
    splitDots_append_no_dot path.data ('[' :: ((toString i).data ++ [']'])) (idx_suffix_no_dot i)
  have hrest : rest ≠ [] := by
    intro hr
    rw [hr] at hf
    exact splitDots_ne_nil pp.data (List.forall₂_nil_right_iff.mp hf)
  rcases List.eq_nil_or_concat rest with rfl | ⟨rest', rlast, rfl⟩
  · exact absurd rfl hrest
  · rw [List.concat_eq_append] at hsplit hf
    rw [h1, ← List.append_assoc] at hsplit
    obtain ⟨hpre, hlast⟩ := snoc_inj hsplit
    refine ⟨bs, rest' ++ [rlast ++ ('[' :: ((toString i).data ++ [']']))], ?_, hbs, ?_⟩
    · rw [idxExtend_data, h2, hpre, hlast, List.append_assoc]
    · refine forall₂_modify_last ?_ rest' rlast _ hf
      intro a b hab
      exact segExt_append rfl hab


theorem cleaned_arr_inv {xa xp : List String} {pp : String} {es : List Value}
    (h : Cleaned xa xp pp (.arr es)) : ∀ e ∈ es, Cleaned xa xp pp e := by
  cases h with
  | arr _ _ h2 => exact h2

theorem cleaned_doc_inv {xa xp : List String} {pp : String} {fs : List (String × Value)}
    (h : Cleaned xa xp pp (.doc fs)) :
    (∀ kv ∈ fs, '.' ∉ (kv.1 : String).data) ∧ (∀ kv ∈ fs, kv.1 ∉ xa) ∧
    (∀ kv ∈ fs, dotExtend pp kv.1 ∉ xp) ∧
    (∀ kv ∈ fs, Cleaned xa xp (dotExtend pp kv.1) kv.2) := by
  cases h with
  | doc _ _ h1 h2 h3 h4 => exact ⟨h1, h2, h3, h4⟩

theorem inv_root (xa xp : List String)
    (hxa : ∀ f ∈ xa, isFieldPath f = true ∧ '.' ∉ f.data)
    (hxp : ∀ p ∈ xp, isFieldPath p = true ∧ '.' ∈ p.data) : Inv xa xp "" "" := by
  refine ⟨⟨[], [[]], rfl, ?_, ?_⟩, ?_, ?_⟩
  · intro s hs; cases hs
  · exact List.Forall₂.cons (segExt_refl []) List.Forall₂.nil
  · intro s hs hmem
    rcases List.mem_singleton.mp hs with rfl
    exact isFieldPath_ne_empty (hxa _ hmem).1 rfl
  · intro hmem
    cases (hxp _ hmem).2

theorem diff_paths_ok (xa xp : List String)
    (hxa : ∀ f ∈ xa, isFieldPath f = true ∧ '.' ∉ f.data)
    (hxp : ∀ p ∈ xp, isFieldPath p = true ∧ '.' ∈ p.data) (P : List String) :
    ∀ (a b : Value) (path : String) (pp : String),
      Cleaned xa xp pp a → Cleaned xa xp pp b → Inv xa xp pp path →
      ∀ d ∈ diffV P a b path, PathOK xa xp d.path := by
  refine diffV.induct P
    (fun a b path => ∀ pp, Cleaned xa xp pp a → Cleaned xa xp pp b → Inv xa xp pp path →
      ∀ d ∈ diffV P a b path, PathOK xa xp d.path)
    (fun la lb path i => ∀ pp, (∀ e ∈ la, Cleaned xa xp pp e) → (∀ e ∈ lb, Cleaned xa xp pp e) →
      Inv xa xp pp path → ∀ d ∈ diffListS P la lb path i, PathOK xa xp d.path)
    (fun ks fa fb path => ∀ pp, Cleaned xa xp pp (.doc fa) → Cleaned xa xp pp (.doc fb) →
      Inv xa xp pp path → ∀ d ∈ diffKeys P ks fa fb path, PathOK xa xp d.path)
    ?_ ?_ ?_ ?_ ?_ ?_ ?_ ?_ ?_ ?_ ?_ ?_ ?_
  · rintro a b path ⟨rfl, rfl⟩ pp _ _ _ d hd
    rw [diffV.eq_def] at hd
    simp at hd
  · intro a b path h1 h2 pp hca hcb hinv d hd
    rw [diffV.eq_def, if_neg h1, if_pos h2] at hd
    rcases List.mem_singleton.mp hd with rfl
    exact pathOK_pathOr xa xp hxa hxp hinv
  · intro path fa fb h1 h2 ih pp hca hcb hinv d hd
    rw [diffV.eq_def] at hd
    simp only [sameType, Bool.true_eq_false, reduceCtorEq, and_self, if_false, ite_false] at hd
    exact ih pp hca hcb hinv d hd
  · intro path la lb hmem h1 h2 pp hca hcb hinv d hd
    rw [diffV.eq_def] at hd
    simp only [sameType, Bool.true_eq_false, reduceCtorEq, and_self, if_false, ite_false] at hd
    simp only [hmem, if_true, diff_list_insensitive] at hd
    split at hd
    · cases hd
    · rcases List.mem_singleton.mp hd with rfl
      exact pathOK_pathOr xa xp hxa hxp hinv
  · intro path la lb hmem h1 h2 ih pp hca hcb hinv d hd
    rw [diffV.eq_def] at hd
    simp only [sameType, Bool.true_eq_false, reduceCtorEq, and_self, if_false, ite_false] at hd
    rw [if_neg hmem] at hd
    rcases List.mem_append.mp hd with hin | hin
    · split at hin
      · rcases List.mem_singleton.mp hin with rfl
        exact pathOK_pathOr xa xp hxa hxp hinv
      · cases hin
    · exact ih pp (cleaned_arr_inv hca) (cleaned_arr_inv hcb) hinv d hin
  · intro path a b hdoc harr hveq h1 h2 pp hca hcb hinv d hd
    rw [diffV.eq_def, if_neg h1, if_neg h2] at hd
    split at hd
    · exact (hdoc _ _ rfl rfl).elim
    · exact (harr _ _ rfl rfl).elim
    · rw [if_pos hveq] at hd
      cases hd
  · intro path a b hdoc harr hveq h1 h2 pp hca hcb hinv d hd
    rw [diffV.eq_def, if_neg h1, if_neg h2] at hd
    split at hd
    · exact (hdoc _ _ rfl rfl).elim
    · exact (harr _ _ rfl rfl).elim
    · rw [if_neg hveq] at hd
      rcases List.mem_singleton.mp hd with rfl
      exact pathOK_pathOr xa xp hxa hxp hinv
  · intro x y pp _ _ _ d hd
    rw [diffListS] at hd
    cases hd
  · intro a as b bs path i ihv ihrest pp hla hlb hinv d hd
    rw [diffListS] at hd
    rcases List.mem_append.mp hd with hin | hin
    · exact ihv pp (hla a (List.mem_cons_self _ _)) (hlb b (List.mem_cons_self _ _))
        (inv_idx hinv i) d hin
    · exact ihrest pp (fun e he => hla e (List.mem_cons_of_mem _ he))
        (fun e he => hlb e (List.mem_cons_of_mem _ he)) hinv d hin
  · intro a as path i ihrest pp hla hlb hinv d hd
    rw [diffListS] at hd
    rcases List.mem_cons.mp hd with rfl | hin
    · exact inv_pathOK xa xp hxa hxp (inv_idx hinv i)
    · exact ihrest pp (fun e he => hla e (List.mem_cons_of_mem _ he)) hlb hinv d hin
  · intro b bs path i ihrest pp hla hlb hinv d hd
    rw [diffListS] at hd
    rcases List.mem_cons.mp hd with rfl | hin
    · exact inv_pathOK xa xp hxa hxp (inv_idx hinv i)
    · exact ihrest pp hla (fun e he => hlb e (List.mem_cons_of_mem _ he)) hinv d hin
  · intro x y z pp _ _ _ d hd
    rw [diffKeys] at hd
    cases hd
  · intro k rest fa fb path ihv ihrest pp hca hcb hinv d hd
    have hfa4 := cleaned_doc_inv hca
    have hfb4 := cleaned_doc_inv hcb
    rw [diffKeys] at hd
    rcases List.mem_append.mp hd with hin | hin
    · split at hin
      · rename_i v hlfa hlfb
        rcases List.mem_singleton.mp hin with rfl
        have hmem := mem_of_lookup hlfb
        exact inv_pathOK xa xp hxa hxp
          (inv_key hinv (hfb4.1 _ hmem) (hfb4.2.1 _ hmem) (hfb4.2.2.1 _ hmem))
      · rename_i v hlfa hlfb
        rcases List.mem_singleton.mp hin with rfl
        have hmem := mem_of_lookup hlfa
        exact inv_pathOK xa xp hxa hxp
          (inv_key hinv (hfa4.1 _ hmem) (hfa4.2.1 _ hmem) (hfa4.2.2.1 _ hmem))
      · rename_i va vb hlfa hlfb
        have hmema := mem_of_lookup hlfa
        exact ihv va vb hlfa hlfb (dotExtend pp k)
          (hfa4.2.2.2 _ hmema) (hfb4.2.2.2 _ (mem_of_lookup hlfb))
          (inv_key hinv (hfa4.1 _ hmema) (hfa4.2.1 _ hmema) (hfa4.2.2.1 _ hmema)) d hin
      · cases hin
    · exact ihrest pp hca hcb hinv d hin


/-- C5 (counterexample to the claim as stated): with the dotted exclusion
entry a[0].b, compare_documents emits a Diff whose path equals that excluded
entry.  The prune phase only ever matches dot-extended key paths, never the
bracketed index paths the diff phase builds for array elements, so the
exclusion does not suppress the difference inside the array. -/
theorem C5_counterexample :
    ∃ d ∈ compare_documents [("a", .arr [.doc [("b", .int 1)]])]
        [("a", .arr [.doc [("b", .int 2)]])] ["a[0].b"] [],
      d.path ∈ (build_exclude_sets ["a[0].b"]).2 := by
  have heq : compare_documents [("a", .arr [.doc [("b", .int 1)]])]
      [("a", .arr [.doc [("b", .int 2)]])] ["a[0].b"] [] =
      [⟨"a[0].b", "value_mismatch", .val (.int 1), .val (.int 2)⟩] := by
    simp [compare_documents, build_exclude_sets, pruneV, pruneFields, pruneArr, dotExtend,
      idxExtend, diffV.eq_def, diffKeys, diffListS, sameType, unionKeys,
      diff_list_insensitive, pathOr, List.insertionSort, List.orderedInsert, List.lookup,
      type_name]
    decide
  rw [heq]
  refine ⟨_, List.mem_singleton_self _, ?_⟩
  refine List.mem_filter.mpr ⟨List.mem_singleton_self _, ?_⟩
  exact (String.contains_iff _ '.').mpr (by decide)

/-- C5 (amended): provided every document field name is dot-free and every
exclusion entry is a valid dotted field path, no Diff produced by
compare_documents has a path equal to a dotted excluded entry or containing a
dotted segment equal to a bare excluded name: bare entries prune any field of
that name at any depth, dotted entries prune the field at that rooted dotted
path, and pruning happens on both documents before any diff rule runs. -/
theorem C5_amended_exclusion (source_doc target_doc : List (String × Value))
    (exclude_fields P : List String)
    (hsrc : keysNoDotF source_doc = true) (htgt : keysNoDotF target_doc = true)
    (hvalid : ∀ f ∈ exclude_fields, isFieldPath f = true) :
    ∀ d ∈ compare_documents source_doc target_doc exclude_fields P,
      PathOK (build_exclude_sets exclude_fields).1 (build_exclude_sets exclude_fields).2
        d.path := by
  intro d hd
  have hxa : ∀ f ∈ (build_exclude_sets exclude_fields).1,
      isFieldPath f = true ∧ '.' ∉ f.data := by
    intro f hf
    rw [build_exclude_sets] at hf
    have h2 := List.mem_filter.mp hf
    refine ⟨hvalid f h2.1, ?_⟩
    intro hdot
    have h3 := h2.2
    rw [Bool.not_eq_true'] at h3
    rw [(String.contains_iff f '.').mpr hdot] at h3
    cases h3
  have hxp : ∀ p ∈ (build_exclude_sets exclude_fields).2,
      isFieldPath p = true ∧ '.' ∈ p.data := by
    intro p hp
    rw [build_exclude_sets] at hp
    have h2 := List.mem_filter.mp hp
    exact ⟨hvalid p h2.1, (String.contains_iff p '.').mp h2.2⟩
  have hc1 := pruneV_cleaned (build_exclude_sets exclude_fields).1
    (build_exclude_sets exclude_fields).2 (.doc source_doc) ""
    (by simpa [keysNoDotV] using hsrc)
  have hc2 := pruneV_cleaned (build_exclude_sets exclude_fields).1
    (build_exclude_sets exclude_fields).2 (.doc target_doc) ""
    (by simpa [keysNoDotV] using htgt)
  rw [compare_documents] at hd
  exact diff_paths_ok _ _ hxa hxp P _ _ "" "" hc1 hc2 (inv_root _ _ hxa hxp) d hd

theorem C5_amended_witness :
    keysNoDotF [("a", Value.int 1), ("b", Value.int 2)] = true ∧
    keysNoDotF [("a", Value.int 3)] = true ∧
    (∀ f ∈ ["b"], isFieldPath f = true) ∧
    ∀ d ∈ compare_documents [("a", Value.int 1), ("b", Value.int 2)] [("a", Value.int 3)]
        ["b"] [],
      PathOK (build_exclude_sets ["b"]).1 (build_exclude_sets ["b"]).2 d.path := by
  refine ⟨?h1, ?h2, ?h3, ?_⟩
  case h1 => simp [keysNoDotF, keysNoDotV]
  case h2 => simp [keysNoDotF, keysNoDotV]
  case h3 =>
    intro f hf
    rcases List.mem_singleton.mp hf with rfl
    decide
  exact C5_amended_exclusion _ _ _ _ (by simp [keysNoDotF, keysNoDotV])
    (by simp [keysNoDotF, keysNoDotV])
    (by intro f hf; rcases List.mem_singleton.mp hf with rfl; decide)


/-- C6 (counterexample to the claim as stated): canonicalization does not
render bytes as hex.  compare.py _json_default handles only datetime and
falls back to str(value), so a bytes value canonicalizes as the JSON string
of its b-prefixed Python repr - the hex encoding lives only in
serialization.py, the journal serializer.  The single byte 0xab
canonicalizes to the quoted repr text, not to the hex text ab, and at an
order-insensitive path the sequence holding it therefore mismatches the
sequence holding the string "ab", which hex canonicalization would have made
equal. -/
theorem C6_counterexample :
    canonV (.bytes [171]) = "\"b'\\\\xab'\"" ∧
    canonV (.str "ab") = "\"ab\"" ∧
    diffV ["t"] (.arr [.bytes [171]]) (.arr [.str "ab"]) "t" =
      [⟨"t", "value_mismatch", .hist [("\"b'\\\\xab'\"", 1)], .hist [("\"ab\"", 1)]⟩] := by
  refine ⟨by decide, by decide, ?_⟩
  have hbody : diffV ["t"] (.arr [.bytes [171]]) (.arr [.str "ab"]) "t" =
      diff_list_insensitive [.bytes [171]] [.str "ab"] "t" := by
    rw [diffV.eq_def]
    simp only [sameType, Bool.true_eq_false, reduceCtorEq, and_self, if_false, ite_false]
    simp
  rw [hbody]
  unfold diff_list_insensitive
  rw [if_neg (by decide)]
  decide

end CMC
